import Mathlib

/-!
Verification of the test-tree reconciliation and run-state engine of
`java/java.lsp.server/vscode/src/testAdapter.ts` (class `NbTestAdapter`).

The TypeScript code is shallowly embedded: the mutable VS Code `TestItem`
tree becomes an immutable tree threaded through the functions, and object
identity (JavaScript reference equality) is made observable through a
`nonce` field: every call of `testController.createTestItem` consumes a
fresh nonce, so two tree nodes are "the same object" exactly when their
nonces agree.  The UI side effects of a `TestRun` (`enqueued`, `started`,
`passed`, `failed`, `skipped`, `errored` calls) are recorded in an append
only log, and the `itemsToRun` JavaScript `Set` becomes a list of items
deduplicated by nonce.
-/

set_option linter.unusedVariables false

namespace NbTestAdapter

/-- JavaScript regex whitespace class (ASCII part; JS also includes some
unicode space characters, irrelevant here). -/
def isJsWhitespace (ch : Char) : Bool :=
  ch == ' ' || ch == '\t' || ch == '\n' || ch == '\r' || ch == '\x0B' || ch == '\x0C'

/-- JavaScript `String.prototype.startsWith`. -/
def jsStartsWith (s p : String) : Bool :=
  p.data.isPrefixOf s.data

/-- JavaScript `String.prototype.trim`: whitespace removed at both ends. -/
def jsTrim (s : String) : String :=
  String.mk (((s.data.dropWhile isJsWhitespace).reverse.dropWhile isJsWhitespace).reverse)

/-- A zero-based source position (vscode `Position`: line, character). -/
structure Pos where
  line : Nat
  character : Nat
deriving DecidableEq, Repr

/-- A source range (vscode `Range`); `stop` stands for the `end` field. -/
structure SRange where
  start : Pos
  stop : Pos
deriving DecidableEq, Repr

/-- Backend-supplied raw range, 1-based, as carried by suite/test snapshots. -/
structure RawRange where
  startLine : Nat
  startColumn : Nat
  endLine : Nat
  endColumn : Nat
deriving DecidableEq, Repr

/-- Modelled from the spec: `asRange` of `protocol.ts` is not under `src/`.
The spec says it turns a backend-supplied 1-based
startLine/startColumn/endLine/endColumn quadruple into a normalized 0-based
range, and is `undefined` for absent input. -/
def asRange : Option RawRange → Option SRange
  | none => none
  | some r => some ⟨⟨r.startLine - 1, r.startColumn - 1⟩, ⟨r.endLine - 1, r.endColumn - 1⟩⟩

/-- A vscode `Location`: a URI (kept abstract as a string; the code can pass
an `undefined` URI through the non-null assertion `currentSuite.uri!`)
together with a position. -/
structure Loc where
  uri : Option String
  pos : Pos
deriving DecidableEq, Repr

/-- A vscode `TestMessage`: the message text plus an optional attached
location. -/
structure TMsg where
  text : String
  location : Option Loc
deriving DecidableEq, Repr

/-- The states accepted by `NbTestAdapter.set`. -/
inductive TState : Type where
  | enqueued | started | passed | failed | skipped | errored
deriving DecidableEq, Repr

/-- Test-result states reported by the backend (protocol `TestCase.state`):
the states of `set` plus `loaded`. -/
inductive ResState : Type where
  | loaded | started | passed | failed | skipped | errored
deriving DecidableEq, Repr

/-- The conversion used at `this.set(currentTest, test.state, ...)`, which is
guarded by `test.state !== 'loaded'` in the source. -/
def ResState.toTState : ResState → Option TState
  | .loaded => none
  | .started => some .started
  | .passed => some .passed
  | .failed => some .failed
  | .skipped => some .skipped
  | .errored => some .errored

/-- Suite lifecycle states (protocol `TestSuite.state`). -/
inductive SuiteState : Type where
  | loaded | started | completed | errored
deriving DecidableEq, Repr

/-- Modelled from the spec: protocol `TestCase` (not under `src/`); the spec
lists id, name, optional file and range, a state and optional stack trace. -/
structure TestCase where
  id : String
  name : String
  file : Option String
  range : Option RawRange
  state : ResState
  stackTrace : Option (List String)
deriving DecidableEq, Repr

/-- Modelled from the spec: protocol `TestSuite` snapshot (not under `src/`);
name, optional file and range, a lifecycle state and an optional test list. -/
structure TestSuiteSnap where
  name : String
  file : Option String
  range : Option RawRange
  state : SuiteState
  tests : Option (List TestCase)
deriving DecidableEq, Repr

/-! ## The test-item tree

A vscode `TestItem` with its `children` collection.  The `nonce` witnesses
JavaScript object identity: `createTestItem` always returns an object with a
fresh nonce. -/

inductive TItem : Type where
  | mk : (nonce : Nat) → (id : String) → (label : String) →
      (uri : Option String) → (range : Option SRange) →
      (children : List TItem) → TItem
deriving Repr

def TItem.nonce : TItem → Nat | .mk n _ _ _ _ _ => n
def TItem.id : TItem → String | .mk _ i _ _ _ _ => i
def TItem.label : TItem → String | .mk _ _ l _ _ _ => l
def TItem.uri : TItem → Option String | .mk _ _ _ u _ _ => u
def TItem.range : TItem → Option SRange | .mk _ _ _ _ r _ => r
def TItem.children : TItem → List TItem | .mk _ _ _ _ _ c => c

def TItem.withChildren : TItem → List TItem → TItem
  | .mk n i l u r _, cs => .mk n i l u r cs

def TItem.withRange : TItem → Option SRange → TItem
  | .mk n i l u _ cs, r => .mk n i l u r cs

mutual
/-- The item together with all of its descendants, in preorder. -/
def allItems : TItem → List TItem
  | .mk n i l u r cs => .mk n i l u r cs :: allItemsList cs
def allItemsList : List TItem → List TItem
  | [] => []
  | x :: xs => allItems x ++ allItemsList xs
end

/-- vscode `TestItemCollection.get`: lookup by id. -/
def childGet (l : List TItem) (id : String) : Option TItem :=
  l.find? (fun x => x.id = id)

/-- vscode `TestItemCollection.add`: an item with the same id is replaced in
place, otherwise the item is appended. -/
def childAdd (l : List TItem) (it : TItem) : List TItem :=
  if l.any (fun x => x.id = it.id) then
    l.map (fun x => if x.id = it.id then it else x)
  else l ++ [it]

/-! ## The run-state machine: `NbTestAdapter.set`

`currentRun` being defined is the `active` flag; the `TestRun` UI calls are
recorded as `Report`s in an append-only `log`; `itemsToRun` is `pending`
(a JavaScript `Set` of item references, deduplicated by nonce). -/

/-- One UI call on the active `TestRun`: which item (nonce and id), which
state, and, for `failed`/`errored`, the message array passed along
(`message || new TestMessage('')`); the other states pass no message. -/
structure Report where
  nonce : Nat
  id : String
  state : TState
  msgs : Option (List TMsg)
deriving DecidableEq, Repr

structure RunState where
  active : Bool
  pending : List TItem
  log : List Report

/-- The `switch` body of `set` for a single item: the `itemsToRun` update
and the single `TestRun` UI call.  For `enqueued` the pending entry keeps
the full item, since the JavaScript `Set` stores the object reference; for
`failed`/`errored` the reported message is `message || new TestMessage('')`. -/
def applyOne (rs : RunState) (item : TItem) (st : TState)
    (msg : Option (List TMsg)) : RunState :=
  match st with
  | .enqueued =>
      { rs with
        pending := if rs.pending.any (fun x => x.nonce = item.nonce) then rs.pending
                   else rs.pending ++ [item],
        log := rs.log ++ [⟨item.nonce, item.id, st, none⟩] }
  | .started | .passed | .skipped =>
      { rs with pending := rs.pending.filter (fun x => x.nonce ≠ item.nonce),
                log := rs.log ++ [⟨item.nonce, item.id, st, none⟩] }
  | .failed | .errored =>
      { rs with pending := rs.pending.filter (fun x => x.nonce ≠ item.nonce),
                log := rs.log ++ [⟨item.nonce, item.id, st, some (msg.getD [⟨"", none⟩])⟩] }

mutual
/-- `NbTestAdapter.set` (source lines 80-103): a no-op unless a run is
active; reports the state for the item and, unless `noPassDown`, recurses
over the children. -/
def set (rs : RunState) (item : TItem) (st : TState)
    (msg : Option (List TMsg)) (npd : Bool) : RunState :=
  match item with
  | .mk n i l u r cs =>
    if rs.active then
      let rs1 := applyOne rs (.mk n i l u r cs) st msg
      if npd then rs1 else setList rs1 cs st msg npd
    else rs
/-- `item.children.forEach(child => this.set(child, state, message, noPassDown))`. -/
def setList (rs : RunState) (items : List TItem) (st : TState)
    (msg : Option (List TMsg)) (npd : Bool) : RunState :=
  match items with
  | [] => rs
  | x :: xs => setList (set rs x st msg npd) xs st msg npd
end

/-- Last state reported for a given nonce. -/
def lastState (log : List Report) (n : Nat) : Option TState :=
  (log.reverse.find? (fun r => r.nonce = n)).map (fun r => r.state)

/-! ## Location mapper: `path.basename` and the stack-frame scan -/

/-- Node `path.basename` for the common case: trailing slashes dropped, then
the part after the last slash. -/
def basename (p : String) : String :=
  let cs := p.data.reverse.dropWhile (fun ch => ch = '/')
  String.mk (cs.takeWhile (fun ch => ch ≠ '/')).reverse

/-- Decimal value of a digit string, as JavaScript `parseInt` computes it on
an all-digit input. -/
def digitsToNat (ds : List Char) : Nat :=
  ds.foldl (fun a ch => a * 10 + (ch.toNat - '0'.toNat)) 0

/-- Matching one stack-trace line against the source regex
`^\s*at[^\(]*\((\S*):(\d*)\)$`: leading whitespace, the letters `at`,
anything up to the first opening parenthesis, then inside the parentheses a
non-space group 1, a colon, a digit-only group 2, a closing parenthesis and
the end of the line.  Because group 1 is greedy, the colon used is the last
colon whose suffix is all digits.  Returns group 1 and the digit characters
of group 2 (possibly empty: `parseInt('')` is `NaN`). -/
def parseStackFrame (s : String) : Option (String × List Char) :=
  match s.data.dropWhile isJsWhitespace with
  | 'a' :: 't' :: rest =>
      match rest.dropWhile (fun ch => ch ≠ '(') with
      | '(' :: body =>
          match body.reverse with
          | ')' :: revMid =>
              let revDigits := revMid.takeWhile Char.isDigit
              match revMid.dropWhile Char.isDigit with
              | ':' :: revG1 =>
                  if revG1.any isJsWhitespace then none
                  else some (String.mk revG1.reverse, revDigits.reverse)
              | _ => none
          | _ => none
      | _ => none
  | _ => none

/-- The scan `test.stackTrace.map(frame => ...).find(l => l)` of the source:
the first frame whose regex match has group 1 equal to `fileName` and whose
parsed line number is truthy (`find(l => l)` skips `null`, `NaN` from empty
digits, and the number `0`). -/
def stackLine (frames : List String) (fileName : String) : Option Nat :=
  frames.findSome? (fun f =>
    match parseStackFrame f with
    | some (file, ds) =>
        if file = fileName ∧ ds ≠ [] ∧ digitsToNat ds ≠ 0 then
          some (digitsToNat ds)
        else none
    | none => none)

/-! ## Tree reconciler: `NbTestAdapter.updateTests` -/

/-- The test controller: its top-level item collection plus the fresh-nonce
counter standing for JavaScript object allocation. -/
structure Ctrl where
  items : List TItem
  nextNonce : Nat

/-- `testController.createTestItem(id, label, uri)`: a fresh object, so a
fresh nonce; `range` starts `undefined` and `children` empty. -/
def createTestItem (n : Nat) (id label : String) (uri : Option String) : TItem :=
  .mk n id label uri none []

/-- Label of a dynamic (during-run) test nested under an inferred parent,
source lines 224-227: the reported name, with the parent label removed and
the remainder trimmed when the name starts with the parent label. -/
def dynLabel (name plabel : String) : String :=
  if jsStartsWith name plabel then jsTrim (String.mk (name.data.drop plabel.data.length))
  else name

/-- The `arr.push(...)` of source line 228 on the association-list rendering
of the `parentTests` map: append the new dynamic item to the entry keyed by
the parent object (identified by its nonce). -/
def ptsAppend (pnonce : Nat) (nw : TItem) (e : TItem × List TItem) :
    TItem × List TItem :=
  if e.1.nonce = pnonce then (e.1, e.2 ++ [nw]) else e

/-- Loop state of the `suite.tests?.forEach` body in `updateTests`:
the current suite object (mutated in place in the source), the allocation
counter, the `children` array and the `parentTests` map (an association
list in insertion order, keyed by object identity, i.e. nonce). -/
structure UTAcc where
  cs : TItem
  fresh : Nat
  childrenAcc : List TItem
  parentTests : List (TItem × List TItem)

/-- One iteration of the `suite.tests?.forEach` body (source lines 197-237). -/
def updateTestsStep (texec : Bool) (acc : UTAcc) (t : TestCase) : UTAcc :=
  let testUri := t.file
  match childGet acc.cs.children t.id with
  | some ct1 =>
      -- `if (currentTest.uri?.toString() !== testUri?.toString())`: recreate
      let recreate := ct1.uri ≠ testUri
      let ct2 := if recreate then createTestItem acc.fresh t.id t.name testUri else ct1
      let cs2 := if recreate then acc.cs.withChildren (childAdd acc.cs.children ct2) else acc.cs
      let fresh2 := if recreate then acc.fresh + 1 else acc.fresh
      -- `if (!testExecution && testRange && testRange !== currentTest.range)`:
      -- `asRange` builds a fresh object, so the reference inequality is
      -- always true when both sides are defined
      let tr := asRange t.range
      let doRange := ¬texec ∧ tr.isSome
      let ct3 := if doRange then ct2.withRange tr else ct2
      let cs3 := if doRange then cs2.withChildren (childAdd cs2.children ct3) else cs2
      { acc with cs := cs3, fresh := fresh2, childrenAcc := acc.childrenAcc ++ [ct3] }
  | none =>
      if texec then
        let parents := acc.cs.children.filter (fun it => jsStartsWith t.id it.id)
        match parents with
        | [p] =>
            -- first dynamic child for this parent: register it and push the
            -- parent on the `children` array
            let isNew := (acc.parentTests.find? (fun e => e.1.nonce = p.nonce)).isNone
            let pts1 := if isNew then acc.parentTests ++ [(p, [])] else acc.parentTests
            let ch1 := if isNew then acc.childrenAcc ++ [p] else acc.childrenAcc
            let nw := createTestItem acc.fresh t.id (dynLabel t.name p.label) none
            let pts2 := pts1.map (ptsAppend p.nonce nw)
            { acc with fresh := acc.fresh + 1, childrenAcc := ch1, parentTests := pts2 }
        | _ => acc
      else
        let nw := (createTestItem acc.fresh t.id t.name testUri).withRange (asRange t.range)
        { acc with cs := acc.cs.withChildren (childAdd acc.cs.children nw),
                   fresh := acc.fresh + 1, childrenAcc := acc.childrenAcc ++ [nw] }

/-- One step of `parentTests.forEach((val, key) => ...)` (source lines
239-244): a fresh item replaces the inferred parent, carrying its id,
label, uri and range, with the collected dynamic children as child list. -/
def ptFoldStep (p : TItem × Nat) (e : TItem × List TItem) : TItem × Nat :=
  let item := TItem.mk p.2 e.1.id e.1.label e.1.uri e.1.range e.2
  (p.1.withChildren (childAdd p.1.children item), p.2 + 1)

/-- `NbTestAdapter.updateTests` (source lines 184-248).  The in-place
mutation of the current suite object is rendered by threading the suite
value and writing it back over the entry with the same nonce at the end. -/
def updateTests (c : Ctrl) (suite : TestSuiteSnap) (testExecution : Bool) : Ctrl :=
  let suiteUri := suite.file
  let (cs0, items0, fresh0) :=
    match childGet c.items suite.name with
    | some cur =>
        if suiteUri.isSome ∧ cur.uri ≠ suiteUri then
          let nw := createTestItem c.nextNonce suite.name suite.name suiteUri
          (nw, childAdd c.items nw, c.nextNonce + 1)
        else (cur, c.items, c.nextNonce)
    | none =>
        let nw := createTestItem c.nextNonce suite.name suite.name suiteUri
        (nw, childAdd c.items nw, c.nextNonce + 1)
  -- `if (!testExecution && suiteRange && suiteRange !== currentSuite.range)`
  let sr := asRange suite.range
  let cs1 := if ¬testExecution ∧ sr.isSome then cs0.withRange sr else cs0
  let acc := (suite.tests.getD []).foldl (updateTestsStep testExecution) ⟨cs1, fresh0, [], []⟩
  let (csF, freshF) :=
    if testExecution then acc.parentTests.foldl ptFoldStep (acc.cs, acc.fresh)
    else (acc.cs.withChildren acc.childrenAcc, acc.fresh)
  { items := items0.map (fun x => if x.nonce = csF.nonce then csF else x),
    nextNonce := freshF }

/-! ## Suite progress: `NbTestAdapter.testProgress` -/

/-- Locating the tree item for a reported result id (source lines 136-143):
direct child lookup, else the first suite child whose id is a prefix of the
result id and among whose children the id is found.  Also returns the uri
of the matched item's parent (`currentTest.parent?.uri`). -/
def resolveTest (cur : TItem) (id : String) : Option (TItem × Option String) :=
  match childGet cur.children id with
  | some x => some (x, cur.uri)
  | none =>
      match cur.children.find? (fun it =>
          jsStartsWith id it.id && (childGet it.children id).isSome) with
      | some mid =>
          match childGet mid.children id with
          | some x => some (x, mid.uri)
          | none => none
      | none => none

/-- Loop state of the `suite.tests?.forEach` body in `testProgress`: the run
state, the `suiteMessages` array, and whether the loop threw (the source
dereferences `currentSuite.range!.start`, a `TypeError` when the suite has
no range; the exception aborts the whole handler). -/
structure TPAcc where
  rs : RunState
  msgs : List TMsg
  crashed : Bool

/-- One iteration of the result loop in the `completed`/`errored` branch of
`testProgress` (source lines 134-173). -/
def tpStep (cur : TItem) (acc : TPAcc) (t : TestCase) : TPAcc :=
  if acc.crashed then acc
  else if acc.rs.active then
    let res := resolveTest cur t.id
    let msgAndCrash : Option TMsg × Bool :=
      match t.stackTrace with
      | none => (none, false)
      | some frames =>
          let text := String.intercalate "\n" frames
          match res with
          | some (ct, parentUri) =>
              match ct.uri <|> parentUri with
              | some u =>
                  let fileName := basename u
                  let pos : Option Pos :=
                    match stackLine frames fileName with
                    | some l => some ⟨l - 1, 0⟩
                    | none => ct.range.map (fun r => r.start)
                  (some ⟨text, pos.map (fun p => ⟨some u, p⟩)⟩, false)
              | none => (some ⟨text, none⟩, false)
          | none =>
              -- `message.location = new Location(currentSuite.uri!, currentSuite.range!.start)`
              match cur.range with
              | some r => (some ⟨text, some ⟨cur.uri, r.start⟩⟩, false)
              | none => (none, true)
    if msgAndCrash.2 then { acc with crashed := true }
    else
      let message := msgAndCrash.1
      match res with
      | some (ct, _) =>
          match t.state.toTState with
          | some st => { acc with rs := set acc.rs ct st (message.map (fun m => [m])) true }
          | none =>
              -- a matched result in state `loaded` falls through to the
              -- `else if (test.state !== 'passed' && message)` branch
              match message with
              | some m =>
                  if t.state ≠ ResState.passed then { acc with msgs := acc.msgs ++ [m] }
                  else acc
              | none => acc
      | none =>
          match message with
          | some m =>
              if t.state ≠ ResState.passed then { acc with msgs := acc.msgs ++ [m] }
              else acc
          | none => acc
  else acc

/-- `NbTestAdapter.testProgress` (source lines 117-182).  The returned flag
records whether the handler threw.  The source reads `currentSuite` from
the controller before `updateTests` runs; the variable aliases the suite
object, so afterwards it sees the updated suite when the object was kept
(same nonce) and the stale detached object when it was recreated. -/
def testProgress (c : Ctrl) (rs : RunState) (suite : TestSuiteSnap) :
    Ctrl × RunState × Bool :=
  let cur0 := childGet c.items suite.name
  match suite.state with
  | .loaded => (updateTests c suite false, rs, false)
  | .started =>
      match cur0 with
      | some cur => (c, set rs cur .started none false, false)
      | none => (c, rs, false)
  | .completed | .errored =>
      match suite.tests with
      | none => (c, rs, false)
      | some ts =>
          let c2 := updateTests c suite true
          match cur0 with
          | none => (c2, rs, false)
          | some old =>
              let cur := (c2.items.find? (fun x => x.nonce = old.nonce)).getD old
              let acc := ts.foldl (tpStep cur) ⟨rs, [], false⟩
              if acc.crashed then (c2, acc.rs, true)
              else if acc.msgs ≠ [] then
                let rs2 := set acc.rs cur .errored (some acc.msgs) true
                let rs3 := setList rs2 cur.children .skipped none false
                (c2, rs3, false)
              else (c2, acc.rs, false)

/-! ## Run orchestrator: `NbTestAdapter.run` -/

/-- One element of `request.include` together with its `parent` reference. -/
structure Sel where
  item : TItem
  parent : Option TItem

/-- The pair built for one selected item in the dedup expression of source
line 58: a child without its own uri whose parent has a uri is replaced by
its parent, keyed by id. -/
def mapEntry (s : Sel) : String × TItem :=
  match s.parent with
  | some p => if s.item.uri.isNone ∧ p.uri.isSome then (p.id, p) else (s.item.id, s.item)
  | none => (s.item.id, s.item)

/-- JavaScript `Map` construction from a pair list: keys keep the order of
their first occurrence, later pairs overwrite the value. -/
def jsMapInsert (acc : List (String × TItem)) (e : String × TItem) :
    List (String × TItem) :=
  if acc.any (fun a => a.1 = e.1) then
    acc.map (fun a => if a.1 = e.1 then (a.1, e.2) else a)
  else acc ++ [e]

/-- The deduplicated selection
`[...new Map(request.include.map(...)).values()]` of source line 58. -/
def dedupInclude (sel : List Sel) : List TItem :=
  ((sel.map mapEntry).foldl jsMapInsert []).map (fun e => e.2)

/-- `idx = item.id.indexOf(':')`: the sub-selector passed to the backend is
the id part after the first colon, when present. -/
def idSuffix (id : String) : Option String :=
  if id.data.contains ':' then
    some (String.mk (id.data.dropWhile (fun ch => ch ≠ ':')).tail)
  else none

/-- The close-out sweep `this.itemsToRun.forEach(item => this.set(item,
'skipped'))`.  A JavaScript `Set.forEach` visits the entries still present
when reached; since `skipped` only removes entries, iterating the initial
snapshot and re-checking membership is exact. -/
def sweepGo : RunState → List TItem → RunState
  | rs, [] => rs
  | rs, x :: xs =>
      sweepGo (if rs.pending.any (fun y => y.nonce = x.nonce)
               then set rs x .skipped none false else rs) xs

def sweep (rs : RunState) : RunState := sweepGo rs rs.pending

/-- A backend progress event reaching `set` while the run is awaited. -/
structure SetEv where
  item : TItem
  state : TState
  msg : Option (List TMsg)
  npd : Bool

structure RunOutcome where
  rs : RunState
  invocations : List (String × Option String)

/-- One step of the include-selection loop of `run` (source lines 59-65):
items with a uri are enqueued and the backend is invoked once for them. -/
def includeStep (p : RunState × List (String × Option String)) (item : TItem) :
    RunState × List (String × Option String) :=
  if item.uri.isSome then
    (set p.1 item .enqueued none false,
     p.2 ++ [(item.uri.getD "", idSuffix item.id)])
  else p

/-- One backend progress event applied through `set`. -/
def eventStep (rs : RunState) (e : SetEv) : RunState :=
  set rs e.item e.state e.msg e.npd

/-- `NbTestAdapter.run` (source lines 53-78): create the run, enqueue the
deduplicated selection (or every top-level item), invoke the backend once
per selected item with a uri (or once per workspace folder unless
cancelled), then sweep the still-pending items to `skipped` and end the
run.  Backend progress arriving during the awaited invocations is modelled
by the `events` list of `set` calls applied before the sweep; cancellation
only short-circuits the run-all invocation loop. -/
def runModel (c : Ctrl) (includeSel : Option (List Sel)) (folders : List String)
    (cancelled : Bool) (events : List SetEv) : RunOutcome :=
  let rs0 : RunState := ⟨true, [], []⟩
  let (rs1, invs) :=
    match includeSel with
    | some sel =>
        (dedupInclude sel).foldl includeStep (rs0, ([] : List (String × Option String)))
    | none =>
        (setList rs0 c.items .enqueued none false,
         if cancelled then [] else folders.map (fun f => (f, none)))
  let rs2 := events.foldl eventStep rs1
  let rs3 := sweep rs2
  ⟨{ rs3 with active := false }, invs⟩

/-- The report emitted by one `TestRun` call of `set`: `failed`/`errored`
carry `message || new TestMessage('')`, the other states carry none. -/
def reportFor (item : TItem) (st : TState) (msg : Option (List TMsg)) : Report :=
  ⟨item.nonce, item.id, st,
   match st with
   | .failed | .errored => some (msg.getD [⟨"", none⟩])
   | _ => none⟩

/-- Run-state invariant: an item whose last reported state is `enqueued` is
still in the pending set.  Every `set` call preserves this, because the
`enqueued` dispatch adds the item to `itemsToRun` while every other
dispatch both removes it and overwrites the last reported state. -/
def Inv (rs : RunState) : Prop :=
  ∀ n, lastState rs.log n = some .enqueued → ∃ y ∈ rs.pending, y.nonce = n

/-- Invariant of the JavaScript `Map` accumulator used in the selection
dedup: every stored key is the id of its value, and keys are distinct. -/
def GoodAcc (acc : List (String × TItem)) : Prop :=
  (∀ a ∈ acc, a.1 = a.2.id) ∧ (acc.map Prod.fst).Nodup

/-- The prefix-match candidates computed for a during-run test id unknown to
the suite (source lines 212-217). -/
def parentsOf (s : TItem) (tid : String) : List TItem :=
  s.children.filter (fun it => jsStartsWith tid it.id)

/-- Invariant of the `parentTests` accumulator while `updateTests` processes
a during-run snapshot whose test ids are all unknown to suite `s`, after the
tests in `done` have been processed: every key is a child of `s`, keys are
distinct objects, every collected dynamic item belongs to a processed test
whose unique prefix parent is that key, and every processed test with a
unique prefix parent has its dynamic item collected under that parent. -/
def DynInv (s : TItem) (done : List TestCase) (pts : List (TItem × List TItem)) : Prop :=
  (∀ e ∈ pts, e.1 ∈ s.children) ∧
  (pts.map (fun e => e.1.nonce)).Nodup ∧
  (∀ e ∈ pts, ∀ x ∈ e.2, ∃ t ∈ done, ∃ n,
     x = TItem.mk n t.id (dynLabel t.name e.1.label) none none [] ∧
     parentsOf s t.id = [e.1]) ∧
  (∀ t ∈ done, ∀ p, parentsOf s t.id = [p] →
     ∃ e ∈ pts, e.1 = p ∧ ∃ x ∈ e.2, ∃ n,
       x = TItem.mk n t.id (dynLabel t.name p.label) none none [])

/-- Invariant of the `updateTests` loop accumulator in during-run mode, for
frame reasoning: the threaded suite keeps its nonce, id and stored range;
every child with a pre-existing nonce is an untouched original child; and
the allocation counter never sinks below the original `nextNonce`. -/
def TexecInv (cs0 : TItem) (nn : Nat) (acc : UTAcc) : Prop :=
  acc.cs.nonce = cs0.nonce ∧ acc.cs.id = cs0.id ∧ acc.cs.range = cs0.range ∧
  (∀ x ∈ acc.cs.children, x.nonce < nn → x ∈ cs0.children) ∧ nn ≤ acc.fresh

/-! ## Basic lemmas about `set` and `setList` -/

theorem set_mk (rs : RunState) (n : Nat) (i l : String) (u : Option String)
    (r : Option SRange) (cs : List TItem) (st : TState) (msg : Option (List TMsg))
    (npd : Bool) :
    set rs (.mk n i l u r cs) st msg npd =
      if rs.active then
        (if npd then applyOne rs (.mk n i l u r cs) st msg
         else setList (applyOne rs (.mk n i l u r cs) st msg) cs st msg npd)
      else rs := rfl

theorem setList_nil (rs : RunState) (st : TState) (msg : Option (List TMsg))
    (npd : Bool) : setList rs [] st msg npd = rs := rfl

theorem setList_cons (rs : RunState) (x : TItem) (xs : List TItem) (st : TState)
    (msg : Option (List TMsg)) (npd : Bool) :
    setList rs (x :: xs) st msg npd = setList (set rs x st msg npd) xs st msg npd := rfl

theorem applyOne_active (rs : RunState) (item : TItem) (st : TState)
    (msg : Option (List TMsg)) : (applyOne rs item st msg).active = rs.active := by
  cases st <;> rfl

theorem applyOne_log (rs : RunState) (item : TItem) (st : TState)
    (msg : Option (List TMsg)) :
    (applyOne rs item st msg).log = rs.log ++ [reportFor item st msg] := by
  cases st <;> rfl

mutual
theorem set_active (rs : RunState) (item : TItem) (st : TState)
    (msg : Option (List TMsg)) (npd : Bool) :
    (set rs item st msg npd).active = rs.active := by
  match item with
  | .mk n i l u r cs =>
    rw [set_mk]
    by_cases h : rs.active
    · by_cases hn : npd <;> simp [h, hn, setList_active, applyOne_active]
    · simp [h]
theorem setList_active (rs : RunState) (items : List TItem) (st : TState)
    (msg : Option (List TMsg)) (npd : Bool) :
    (setList rs items st msg npd).active = rs.active := by
  match items with
  | [] => rw [setList_nil]
  | x :: xs => rw [setList_cons, setList_active, set_active]
end

mutual
theorem set_log_mono (rs : RunState) (item : TItem) (st : TState)
    (msg : Option (List TMsg)) (npd : Bool) :
    rs.log <+: (set rs item st msg npd).log := by
  match item with
  | .mk n i l u r cs =>
    rw [set_mk]
    by_cases h : rs.active
    · by_cases hn : npd
      · simp only [h, hn, if_true]
        exact ⟨[reportFor (.mk n i l u r cs) st msg], (applyOne_log ..).symm⟩
      · simp only [h, hn, if_true, if_false]
        refine List.IsPrefix.trans ?_ (setList_log_mono ..)
        exact ⟨[reportFor (.mk n i l u r cs) st msg], (applyOne_log ..).symm⟩
    · simp [h]
theorem setList_log_mono (rs : RunState) (items : List TItem) (st : TState)
    (msg : Option (List TMsg)) (npd : Bool) :
    rs.log <+: (setList rs items st msg npd).log := by
  match items with
  | [] => rw [setList_nil]
  | x :: xs =>
    rw [setList_cons]
    exact (set_log_mono ..).trans (setList_log_mono ..)
end

mutual
/-- With an active run and `noPassDown` unset, `set` reports the state, with
the same message, for the item and its whole subtree. -/
theorem set_reports (rs : RunState) (item : TItem) (st : TState)
    (msg : Option (List TMsg)) (h : rs.active = true) :
    ∀ d ∈ allItems item, reportFor d st msg ∈ (set rs item st msg false).log := by
  match item with
  | .mk n i l u r cs =>
    intro d hd
    rw [allItems] at hd
    rw [set_mk]
    simp only [h, if_true, Bool.false_eq_true, if_false]
    rcases List.mem_cons.1 hd with h1 | h2
    · subst h1
      refine (setList_log_mono ..).subset ?_
      rw [applyOne_log]
      exact List.mem_append_right _ (List.mem_singleton.2 rfl)
    · exact setList_reports _ cs st msg (by rw [applyOne_active]; exact h) d h2
theorem setList_reports (rs : RunState) (items : List TItem) (st : TState)
    (msg : Option (List TMsg)) (h : rs.active = true) :
    ∀ d ∈ allItemsList items, reportFor d st msg ∈ (setList rs items st msg false).log := by
  match items with
  | [] => intro d hd; rw [allItemsList] at hd; exact absurd hd (List.not_mem_nil d)
  | x :: xs =>
    intro d hd
    rw [allItemsList] at hd
    rw [setList_cons]
    rcases List.mem_append.1 hd with h1 | h2
    · exact (setList_log_mono ..).subset (set_reports rs x st msg h d h1)
    · exact setList_reports _ xs st msg (by rw [set_active]; exact h) d h2
end

/-! ## Claim C9: `set` outside an active run is a no-op -/

/-- Claim C9: calling `set` when no run session is active (the `currentRun`
slot is empty, i.e. before a run starts or after `run()` cleared it) has no
effect at all: nothing is reported, the pending set is untouched, no
descendant is visited — the returned state is the input state. -/
theorem c9_set_no_run_no_effect (rs : RunState) (item : TItem) (st : TState)
    (msg : Option (List TMsg)) (npd : Bool) (h : rs.active = false) :
    set rs item st msg npd = rs := by
  match item with
  | .mk n i l u r cs => rw [set_mk, h]; simp

/-- Witness for C9 at a concrete input. -/
theorem c9_witness :
    set ⟨false, [], []⟩ (.mk 0 "S" "S" none none [.mk 1 "t" "t" none none []])
      .failed (some [⟨"boom", none⟩]) false = ⟨false, [], []⟩ :=
  c9_set_no_run_no_effect ⟨false, [], []⟩
    (.mk 0 "S" "S" none none [.mk 1 "t" "t" none none []])
    .failed (some [⟨"boom", none⟩]) false rfl

/-! ## Claim C4: propagate-down state setting -/

/-- Claim C4: during an active run, `set(item, state, message)` with
`noPassDown` unset reports that same state, with that same message, for the
item and every descendant in its subtree (`allItems` is the item plus all
descendants; `reportFor` is the state/message pair handed to the run UI). -/
theorem c4_set_propagates (rs : RunState) (item : TItem) (st : TState)
    (msg : Option (List TMsg)) (h : rs.active = true) :
    ∀ d ∈ allItems item, reportFor d st msg ∈ (set rs item st msg false).log :=
  set_reports rs item st msg h

/-- Witness for C4: a suite with a nested grandchild; the grandchild's
report is in the log. -/
theorem c4_witness :
    reportFor (.mk 2 "g" "g" none none []) .failed (some [⟨"m", none⟩]) ∈
      (set ⟨true, [], []⟩
        (.mk 0 "S" "S" none none [.mk 1 "t" "t" none none [.mk 2 "g" "g" none none []]])
        .failed (some [⟨"m", none⟩]) false).log :=
  c4_set_propagates ⟨true, [], []⟩
    (.mk 0 "S" "S" none none [.mk 1 "t" "t" none none [.mk 2 "g" "g" none none []]])
    .failed (some [⟨"m", none⟩]) rfl
    (.mk 2 "g" "g" none none []) (by simp [allItems, allItemsList])

/-! ## Pending-set lemmas and the run close-out -/

theorem applyOne_pending_ne (rs : RunState) (item : TItem) (st : TState)
    (msg : Option (List TMsg)) (hst : st ≠ .enqueued) :
    (applyOne rs item st msg).pending =
      rs.pending.filter (fun x => x.nonce ≠ item.nonce) := by
  cases st
  · exact absurd rfl hst
  all_goals rfl

mutual
theorem set_pending_sub (rs : RunState) (item : TItem) (st : TState)
    (msg : Option (List TMsg)) (npd : Bool) (hst : st ≠ .enqueued) :
    ∀ y ∈ (set rs item st msg npd).pending, y ∈ rs.pending := by
  match item with
  | .mk n i l u r cs =>
    intro y hy
    rw [set_mk] at hy
    by_cases h : rs.active
    · simp only [h, if_true] at hy
      by_cases hn : npd
      · rw [if_pos hn, applyOne_pending_ne _ _ _ _ hst] at hy
        exact (List.mem_filter.1 hy).1
      · rw [if_neg hn] at hy
        have := setList_pending_sub _ cs st msg npd hst y hy
        rw [applyOne_pending_ne _ _ _ _ hst] at this
        exact (List.mem_filter.1 this).1
    · simp only [h, if_false] at hy
      exact hy
theorem setList_pending_sub (rs : RunState) (items : List TItem) (st : TState)
    (msg : Option (List TMsg)) (npd : Bool) (hst : st ≠ .enqueued) :
    ∀ y ∈ (setList rs items st msg npd).pending, y ∈ rs.pending := by
  match items with
  | [] => intro y hy; rw [setList_nil] at hy; exact hy
  | x :: xs =>
    intro y hy
    rw [setList_cons] at hy
    exact set_pending_sub rs x st msg npd hst y
      (setList_pending_sub _ xs st msg npd hst y hy)
end

theorem set_pending_ne (rs : RunState) (item : TItem) (st : TState)
    (msg : Option (List TMsg)) (npd : Bool) (h : rs.active = true)
    (hst : st ≠ .enqueued) :
    ∀ y ∈ (set rs item st msg npd).pending, y.nonce ≠ item.nonce := by
  match item with
  | .mk n i l u r cs =>
    intro y hy
    rw [set_mk] at hy
    simp only [h, if_true] at hy
    have hy2 : y ∈ (applyOne rs (.mk n i l u r cs) st msg).pending := by
      by_cases hn : npd
      · rw [if_pos hn] at hy; exact hy
      · rw [if_neg hn] at hy
        exact setList_pending_sub _ cs st msg npd hst y hy
    rw [applyOne_pending_ne _ _ _ _ hst] at hy2
    have := (List.mem_filter.1 hy2).2
    exact of_decide_eq_true this

theorem lastState_append (log : List Report) (r : Report) (n : Nat) :
    lastState (log ++ [r]) n = if r.nonce = n then some r.state else lastState log n := by
  unfold lastState
  rw [List.reverse_append]
  simp only [List.reverse_singleton, List.singleton_append]
  by_cases h : r.nonce = n
  · rw [List.find?_cons_of_pos _ (by simp [h]), if_pos h]
    rfl
  · rw [List.find?_cons_of_neg _ (by simp [h]), if_neg h]

theorem applyOne_inv (rs : RunState) (item : TItem) (st : TState)
    (msg : Option (List TMsg)) (hinv : Inv rs) : Inv (applyOne rs item st msg) := by
  intro n hn
  rw [applyOne_log, lastState_append] at hn
  have h1 : (reportFor item st msg).nonce = item.nonce := rfl
  have h2 : (reportFor item st msg).state = st := rfl
  rw [h1, h2] at hn
  by_cases he : st = .enqueued
  · subst he
    by_cases hm : item.nonce = n
    · -- the enqueued item itself is (or already was) in the pending set
      subst hm
      show ∃ y ∈ (applyOne rs item .enqueued msg).pending, y.nonce = item.nonce
      simp only [applyOne]
      by_cases hp : rs.pending.any (fun x => x.nonce = item.nonce)
      · simp only [hp, if_true]
        obtain ⟨y, hy, hyn⟩ := List.any_eq_true.1 hp
        exact ⟨y, hy, of_decide_eq_true hyn⟩
      · simp only [hp, if_false]
        exact ⟨item, List.mem_append_right _ (List.mem_singleton.2 rfl), rfl⟩
    · rw [if_neg hm] at hn
      obtain ⟨y, hy, hyn⟩ := hinv n hn
      refine ⟨y, ?_, hyn⟩
      show y ∈ (applyOne rs item .enqueued msg).pending
      simp only [applyOne]
      by_cases hp : rs.pending.any (fun x => x.nonce = item.nonce)
      · simp only [hp, if_true]; exact hy
      · simp only [hp, if_false]; exact List.mem_append_left _ hy
  · by_cases hm : item.nonce = n
    · rw [if_pos hm] at hn
      exact absurd (Option.some_inj.1 hn) (fun hc => he hc)
    · rw [if_neg hm] at hn
      obtain ⟨y, hy, hyn⟩ := hinv n hn
      refine ⟨y, ?_, hyn⟩
      rw [applyOne_pending_ne _ _ _ _ he]
      exact List.mem_filter.2 ⟨hy, decide_eq_true (by rw [hyn]; exact fun hc => hm hc.symm)⟩

mutual
theorem set_inv (rs : RunState) (item : TItem) (st : TState)
    (msg : Option (List TMsg)) (npd : Bool) (hinv : Inv rs) :
    Inv (set rs item st msg npd) := by
  match item with
  | .mk n i l u r cs =>
    rw [set_mk]
    by_cases h : rs.active
    · simp only [h, if_true]
      by_cases hn : npd
      · rw [if_pos hn]; exact applyOne_inv _ _ _ _ hinv
      · rw [if_neg hn]; exact setList_inv _ cs st msg npd (applyOne_inv _ _ _ _ hinv)
    · simp only [h, if_false]; exact hinv
theorem setList_inv (rs : RunState) (items : List TItem) (st : TState)
    (msg : Option (List TMsg)) (npd : Bool) (hinv : Inv rs) :
    Inv (setList rs items st msg npd) := by
  match items with
  | [] => rw [setList_nil]; exact hinv
  | x :: xs =>
    rw [setList_cons]
    exact setList_inv _ xs st msg npd (set_inv rs x st msg npd hinv)
end

theorem sweepGo_nil (rs : RunState) : sweepGo rs [] = rs := rfl

theorem sweepGo_cons (rs : RunState) (x : TItem) (xs : List TItem) :
    sweepGo rs (x :: xs) =
      sweepGo (if rs.pending.any (fun y => y.nonce = x.nonce)
               then set rs x .skipped none false else rs) xs := rfl

theorem sweepGo_active : ∀ (xs : List TItem) (rs : RunState),
    (sweepGo rs xs).active = rs.active
  | [], rs => rfl
  | x :: xs, rs => by
      rw [sweepGo_cons, sweepGo_active xs]
      by_cases hb : rs.pending.any (fun y => y.nonce = x.nonce) <;>
        simp [hb, set_active]

theorem sweepGo_inv : ∀ (xs : List TItem) (rs : RunState), Inv rs →
    Inv (sweepGo rs xs)
  | [], rs, hinv => hinv
  | x :: xs, rs, hinv => by
      rw [sweepGo_cons]
      refine sweepGo_inv xs _ ?_
      by_cases hb : rs.pending.any (fun y => y.nonce = x.nonce)
      · rw [if_pos hb]; exact set_inv _ _ _ _ _ hinv
      · rw [if_neg hb]; exact hinv

/-- The sweep over a superset of the pending nonces empties the pending
set: each entry is either gone already or explicitly set to `skipped`, and
`skipped` never adds entries. -/
theorem sweepGo_empty : ∀ (xs : List TItem) (rs : RunState),
    rs.active = true → (∀ y ∈ rs.pending, ∃ x ∈ xs, x.nonce = y.nonce) →
    (sweepGo rs xs).pending = []
  | [], rs, h, hsub =>
      List.eq_nil_iff_forall_not_mem.2 (fun y hy => by
        obtain ⟨x, hx, _⟩ := hsub y hy
        exact (List.not_mem_nil x) hx)
  | x :: xs, rs, h, hsub => by
      rw [sweepGo_cons]
      by_cases hb : rs.pending.any (fun y => y.nonce = x.nonce)
      · rw [if_pos hb]
        refine sweepGo_empty xs _ (by rw [set_active]; exact h) ?_
        intro y hy
        have h1 : y ∈ rs.pending :=
          set_pending_sub _ _ _ _ _ (by decide) y hy
        have h2 : y.nonce ≠ x.nonce :=
          set_pending_ne _ _ _ _ _ h (by decide) y hy
        obtain ⟨x', hx', hxn⟩ := hsub y h1
        rcases List.mem_cons.1 hx' with rfl | hx'
        · exact absurd hxn.symm h2
        · exact ⟨x', hx', hxn⟩
      · rw [if_neg hb]
        refine sweepGo_empty xs rs h ?_
        intro y hy
        obtain ⟨x', hx', hxn⟩ := hsub y hy
        rcases List.mem_cons.1 hx' with rfl | hx'
        · exact absurd (List.any_eq_true.2 ⟨y, hy, decide_eq_true hxn.symm⟩) hb
        · exact ⟨x', hx', hxn⟩

theorem includeFold_active : ∀ (l : List TItem)
    (p : RunState × List (String × Option String)),
    (l.foldl includeStep p).1.active = p.1.active
  | [], p => rfl
  | x :: xs, p => by
      rw [List.foldl_cons, includeFold_active xs]
      unfold includeStep
      by_cases hu : x.uri.isSome <;> simp [hu, set_active]

theorem includeFold_inv : ∀ (l : List TItem)
    (p : RunState × List (String × Option String)), Inv p.1 →
    Inv (l.foldl includeStep p).1
  | [], p, hinv => hinv
  | x :: xs, p, hinv => by
      rw [List.foldl_cons]
      refine includeFold_inv xs _ ?_
      unfold includeStep
      by_cases hu : x.uri.isSome
      · simp only [hu, if_true]; exact set_inv _ _ _ _ _ hinv
      · simp only [hu, if_false]; exact hinv

theorem eventFold_active : ∀ (l : List SetEv) (rs : RunState),
    (l.foldl eventStep rs).active = rs.active
  | [], rs => rfl
  | e :: es, rs => by
      rw [List.foldl_cons, eventFold_active es]
      unfold eventStep
      rw [set_active]

theorem eventFold_inv : ∀ (l : List SetEv) (rs : RunState), Inv rs →
    Inv (l.foldl eventStep rs)
  | [], rs, hinv => hinv
  | e :: es, rs, hinv => by
      rw [List.foldl_cons]
      exact eventFold_inv es _ (set_inv _ _ _ _ _ hinv)

/-- The run state reaching the close-out sweep of `run`: active, and
satisfying the enqueued-implies-pending invariant. -/
theorem runModel_rs (c : Ctrl) (includeSel : Option (List Sel)) (folders : List String)
    (cancelled : Bool) (events : List SetEv) :
    ∃ rs2 : RunState, rs2.active = true ∧ Inv rs2 ∧
      (runModel c includeSel folders cancelled events).rs =
        { sweep rs2 with active := false } := by
  have binv : Inv ⟨true, [], []⟩ := fun n hn => Option.noConfusion hn
  cases includeSel with
  | none =>
      refine ⟨events.foldl eventStep (setList ⟨true, [], []⟩ c.items .enqueued none false),
        ?_, ?_, rfl⟩
      · rw [eventFold_active, setList_active]
      · exact eventFold_inv _ _ (setList_inv _ _ _ _ _ binv)
  | some sel =>
      refine ⟨events.foldl eventStep
        ((dedupInclude sel).foldl includeStep
          (⟨true, [], []⟩, ([] : List (String × Option String)))).1, ?_, ?_, rfl⟩
      · rw [eventFold_active, includeFold_active]
      · exact eventFold_inv _ _ (includeFold_inv _ _ binv)

/-! ## Claim C2: run close-out -/

/-- Counterexample to C2 as stated: one item is selected and enqueued; the
backend reports `started` for it and nothing more.  The `started` dispatch
of `set` deletes the item from `itemsToRun`, so the close-out sweep does
not touch it, and the run ends with the item's last reported state
`started` — not in one of the claimed terminal states
passed/failed/skipped/errored.  The full report log of the session is
enqueued followed by started, nothing else. -/
theorem c2_counterexample :
    (runModel ⟨[], 1⟩
        (some [⟨.mk 0 "a" "a" (some "file:///A.java") none [], none⟩]) [] false
        [⟨.mk 0 "a" "a" (some "file:///A.java") none [], .started, none, false⟩]).rs.log =
      [⟨0, "a", .enqueued, none⟩, ⟨0, "a", .started, none⟩] ∧
    lastState (runModel ⟨[], 1⟩
        (some [⟨.mk 0 "a" "a" (some "file:///A.java") none [], none⟩]) [] false
        [⟨.mk 0 "a" "a" (some "file:///A.java") none [], .started, none, false⟩]).rs.log 0 =
      some .started :=
  ⟨rfl, rfl⟩

/-- Claim C2, amended: after `run()` completes, every item still in the
run's pending set at run end has been marked `skipped` and the pending set
is empty, so no enqueued item ends the run with `enqueued` as its last
reported state.  However, the `started` dispatch of `set` removes the item
from the pending set, so an item that was reported `started` and never
reached a terminal state is not swept and ends the run in `started`. -/
theorem c2_amended_closeout (c : Ctrl) (includeSel : Option (List Sel))
    (folders : List String) (cancelled : Bool) (events : List SetEv) :
    (runModel c includeSel folders cancelled events).rs.pending = [] ∧
    ∀ n, lastState (runModel c includeSel folders cancelled events).rs.log n ≠
      some TState.enqueued := by
  obtain ⟨rs2, hact, hinv, heq⟩ := runModel_rs c includeSel folders cancelled events
  rw [heq]
  have hempty : (sweepGo rs2 rs2.pending).pending = [] :=
    sweepGo_empty rs2.pending rs2 hact (fun y hy => ⟨y, hy, rfl⟩)
  constructor
  · show (sweepGo rs2 rs2.pending).pending = []
    exact hempty
  · intro n hcon
    have hcon2 : lastState (sweepGo rs2 rs2.pending).log n = some .enqueued := hcon
    obtain ⟨y, hy, _⟩ := sweepGo_inv rs2.pending rs2 hinv n hcon2
    rw [hempty] at hy
    exact (List.not_mem_nil y) hy

/-- Witness for the amended C2 at a concrete input: a selected item that is
enqueued and never reported on is swept, so the pending set ends empty. -/
theorem c2_witness :
    (runModel ⟨[], 1⟩
        (some [⟨.mk 0 "a" "a" (some "file:///A.java") none [], none⟩]) [] false []).rs.pending
      = [] :=
  (c2_amended_closeout ⟨[], 1⟩
      (some [⟨.mk 0 "a" "a" (some "file:///A.java") none [], none⟩]) [] false []).1

/-! ## Claim C6: selection dedup -/

theorem mapEntry_fst (s : Sel) : (mapEntry s).1 = (mapEntry s).2.id := by
  obtain ⟨item, parent⟩ := s
  cases parent with
  | none => rfl
  | some p =>
      by_cases h : item.uri = none ∧ p.uri.isSome = true
      · simp [mapEntry, h]
      · simp [mapEntry, h]

theorem jsMapInsert_keys (acc : List (String × TItem)) (e : String × TItem) :
    (jsMapInsert acc e).map Prod.fst = acc.map Prod.fst ∨
    (jsMapInsert acc e).map Prod.fst = acc.map Prod.fst ++ [e.1] := by
  unfold jsMapInsert
  by_cases h : acc.any (fun a => a.1 = e.1)
  · left
    rw [if_pos h, List.map_map]
    refine List.map_congr_left ?_
    intro a ha
    by_cases ha2 : a.1 = e.1 <;> simp [ha2, Function.comp]
  · right
    rw [if_neg h, List.map_append]
    rfl

theorem jsMapInsert_key_mem (acc : List (String × TItem)) (e : String × TItem) :
    e.1 ∈ (jsMapInsert acc e).map Prod.fst := by
  unfold jsMapInsert
  by_cases h : acc.any (fun a => a.1 = e.1)
  · rw [if_pos h]
    obtain ⟨a, ha, hae⟩ := List.any_eq_true.1 h
    have hae2 : a.1 = e.1 := of_decide_eq_true hae
    refine List.mem_map.2 ⟨(a.1, e.2), ?_, hae2⟩
    exact List.mem_map.2 ⟨a, ha, by rw [if_pos hae2]⟩
  · rw [if_neg h, List.map_append]
    exact List.mem_append_right _ (List.mem_singleton.2 rfl)

theorem jsMapInsert_key_mono (acc : List (String × TItem)) (e : String × TItem)
    (k : String) (hk : k ∈ acc.map Prod.fst) : k ∈ (jsMapInsert acc e).map Prod.fst := by
  rcases jsMapInsert_keys acc e with h | h <;> rw [h]
  · exact hk
  · exact List.mem_append_left _ hk

theorem jsMapInsert_good (acc : List (String × TItem)) (e : String × TItem)
    (hacc : GoodAcc acc) (he : e.1 = e.2.id) : GoodAcc (jsMapInsert acc e) := by
  unfold jsMapInsert
  by_cases h : acc.any (fun a => a.1 = e.1)
  · rw [if_pos h]
    constructor
    · intro a ha
      obtain ⟨b, hb, hba⟩ := List.mem_map.1 ha
      by_cases hb2 : b.1 = e.1
      · rw [if_pos hb2] at hba
        rw [← hba]
        show b.1 = e.2.id
        rw [hb2, he]
      · rw [if_neg hb2] at hba
        rw [← hba]
        exact hacc.1 b hb
    · have : ((acc.map (fun a => if a.1 = e.1 then (a.1, e.2) else a)).map Prod.fst) =
        acc.map Prod.fst := by
        rw [List.map_map]
        refine List.map_congr_left ?_
        intro a ha
        by_cases ha2 : a.1 = e.1 <;> simp [ha2, Function.comp]
      rw [this]
      exact hacc.2
  · rw [if_neg h]
    constructor
    · intro a ha
      rcases List.mem_append.1 ha with h1 | h1
      · exact hacc.1 a h1
      · rw [List.mem_singleton.1 h1]; exact he
    · rw [List.map_append]
      refine List.nodup_append.2 ⟨hacc.2, List.nodup_singleton _, ?_⟩
      intro k hk hke
      have hke2 : k = e.1 := by simpa using hke
      subst hke2
      obtain ⟨a, ha, hae⟩ := List.mem_map.1 hk
      exact absurd (List.any_eq_true.2 ⟨a, ha, decide_eq_true hae⟩) h

theorem foldInsert_good (l : List (String × TItem)) :
    ∀ acc, GoodAcc acc → (∀ e ∈ l, e.1 = e.2.id) →
      GoodAcc (l.foldl jsMapInsert acc) := by
  induction l with
  | nil => intro acc hacc _; exact hacc
  | cons e es ih =>
      intro acc hacc hl
      rw [List.foldl_cons]
      exact ih _ (jsMapInsert_good acc e hacc (hl e (List.mem_cons_self e es)))
        (fun x hx => hl x (List.mem_cons_of_mem e hx))

theorem foldInsert_keys_sub (l : List (String × TItem)) :
    ∀ acc, ∀ k ∈ (l.foldl jsMapInsert acc).map Prod.fst,
      k ∈ acc.map Prod.fst ∨ k ∈ l.map Prod.fst := by
  induction l with
  | nil => intro acc k hk; exact Or.inl hk
  | cons e es ih =>
      intro acc k hk
      rw [List.foldl_cons] at hk
      rcases ih _ k hk with h1 | h1
      · rcases jsMapInsert_keys acc e with h2 | h2 <;> rw [h2] at h1
        · exact Or.inl h1
        · rcases List.mem_append.1 h1 with h3 | h3
          · exact Or.inl h3
          · have h4 : k = e.1 := by simpa using h3
            subst h4
            refine Or.inr ?_
            rw [List.map_cons]
            exact List.mem_cons_self _ _
      · refine Or.inr ?_
        rw [List.map_cons]
        exact List.mem_cons_of_mem _ h1

theorem foldInsert_key_mono (l : List (String × TItem)) :
    ∀ acc (k : String), k ∈ acc.map Prod.fst →
      k ∈ (l.foldl jsMapInsert acc).map Prod.fst := by
  induction l with
  | nil => intro acc k hk; exact hk
  | cons e es ih =>
      intro acc k hk
      rw [List.foldl_cons]
      exact ih _ k (jsMapInsert_key_mono acc e k hk)

theorem foldInsert_key_mem (l : List (String × TItem)) :
    ∀ acc (k : String), k ∈ l.map Prod.fst →
      k ∈ (l.foldl jsMapInsert acc).map Prod.fst := by
  induction l with
  | nil => intro acc k hk; exact absurd hk (by simp)
  | cons e es ih =>
      intro acc k hk
      rw [List.foldl_cons]
      rw [List.map_cons] at hk
      rcases List.mem_cons.1 hk with rfl | h1
      · exact foldInsert_key_mono es _ _ (jsMapInsert_key_mem acc e)
      · exact ih _ k h1

theorem dedupInclude_ids (sel : List Sel) :
    (dedupInclude sel).map TItem.id =
      ((sel.map mapEntry).foldl jsMapInsert []).map Prod.fst := by
  unfold dedupInclude
  rw [List.map_map]
  have hgood : GoodAcc ((sel.map mapEntry).foldl jsMapInsert []) :=
    foldInsert_good _ [] ⟨by simp, by simp⟩
      (by intro e he
          obtain ⟨s, _, hse⟩ := List.mem_map.1 he
          rw [← hse]; exact mapEntry_fst s)
  refine List.map_congr_left ?_
  intro a ha
  exact ((hgood.1) a ha).symm

/-- The invocation list produced by the include loop: one backend call per
deduplicated item with a uri, in order. -/
theorem includeFold_invocations (l : List TItem) :
    ∀ p : RunState × List (String × Option String),
      (l.foldl includeStep p).2 =
        p.2 ++ (l.filter (fun x => x.uri.isSome)).map
          (fun x => (x.uri.getD "", idSuffix x.id)) := by
  induction l with
  | nil => intro p; simp
  | cons x xs ih =>
      intro p
      rw [List.foldl_cons, ih]
      unfold includeStep
      by_cases hu : x.uri.isSome
      · rw [if_pos hu, List.filter_cons_of_pos (by exact hu), List.map_cons]
        simp
      · rw [if_neg hu, List.filter_cons_of_neg (by simpa using hu)]

/-- Claim C6: on a run request with an explicit selection, the selection is
deduplicated by id before invocation.  Concretely, for any selection `sel`:
ids of the deduplicated list are pairwise distinct and the backend is
invoked exactly once per deduplicated item with a uri (fourth conjunct); a
selected child with no uri whose parent has a uri is replaced by that
parent, whose id is kept (second conjunct); and when no selection entry
maps to the child's own id, the child itself is not run (third conjunct). -/
theorem c6_selection_dedup (c : Ctrl) (folders : List String) (cancelled : Bool)
    (events : List SetEv) (sel : List Sel) (child parent : TItem)
    (hsel : (⟨child, some parent⟩ : Sel) ∈ sel)
    (hcu : child.uri = none) (hpu : parent.uri.isSome = true)
    (hno : ∀ e ∈ sel, (mapEntry e).1 ≠ child.id) :
    ((dedupInclude sel).map TItem.id).Nodup ∧
    (∃ x ∈ dedupInclude sel, x.id = parent.id) ∧
    (∀ x ∈ dedupInclude sel, x.id ≠ child.id) ∧
    (runModel c (some sel) folders cancelled events).invocations =
      ((dedupInclude sel).filter (fun x => x.uri.isSome)).map
        (fun x => (x.uri.getD "", idSuffix x.id)) := by
  have hgood : GoodAcc ((sel.map mapEntry).foldl jsMapInsert []) :=
    foldInsert_good _ [] ⟨by simp, by simp⟩
      (by intro e he
          obtain ⟨s, _, hse⟩ := List.mem_map.1 he
          rw [← hse]; exact mapEntry_fst s)
  refine ⟨?_, ?_, ?_, ?_⟩
  · rw [dedupInclude_ids]
    exact hgood.2
  · have hme : mapEntry ⟨child, some parent⟩ = (parent.id, parent) := by
      simp [mapEntry, hcu, hpu]
    have hkey : parent.id ∈ ((sel.map mapEntry).foldl jsMapInsert []).map Prod.fst := by
      refine foldInsert_key_mem _ [] _ ?_
      refine List.mem_map.2 ⟨mapEntry ⟨child, some parent⟩, List.mem_map.2 ⟨_, hsel, rfl⟩, ?_⟩
      rw [hme]
    obtain ⟨a, ha, hak⟩ := List.mem_map.1 hkey
    refine ⟨a.2, List.mem_map.2 ⟨a, ha, rfl⟩, ?_⟩
    rw [← hgood.1 a ha, hak]
  · intro x hx hxid
    obtain ⟨a, ha, hax⟩ := List.mem_map.1 hx
    have hkey : child.id ∈ ((sel.map mapEntry).foldl jsMapInsert []).map Prod.fst := by
      refine List.mem_map.2 ⟨a, ha, ?_⟩
      rw [hgood.1 a ha, hax, hxid]
    rcases foldInsert_keys_sub _ [] _ hkey with h1 | h1
    · simp at h1
    · obtain ⟨e, he, hek⟩ := List.mem_map.1 h1
      obtain ⟨s, hs, hse⟩ := List.mem_map.1 he
      exact hno s hs (by rw [hse, hek])
  · show ((dedupInclude sel).foldl includeStep
      (⟨true, [], []⟩, ([] : List (String × Option String)))).2 = _
    rw [includeFold_invocations]
    rfl

/-- Witness for C6: selecting a parent (with uri) and its uri-less child
collapses to one invocation of the parent. -/
theorem c6_witness :
    (((dedupInclude [⟨.mk 1 "p:t" "c" none none [], some (.mk 0 "p" "p" (some "file:///P.java") none [])⟩,
        ⟨.mk 0 "p" "p" (some "file:///P.java") none [], none⟩]).map TItem.id).Nodup ∧
    (∃ x ∈ dedupInclude [⟨.mk 1 "p:t" "c" none none [], some (.mk 0 "p" "p" (some "file:///P.java") none [])⟩,
        ⟨.mk 0 "p" "p" (some "file:///P.java") none [], none⟩], x.id = "p") ∧
    (∀ x ∈ dedupInclude [⟨.mk 1 "p:t" "c" none none [], some (.mk 0 "p" "p" (some "file:///P.java") none [])⟩,
        ⟨.mk 0 "p" "p" (some "file:///P.java") none [], none⟩], x.id ≠ "p:t") ∧
    (runModel ⟨[], 2⟩ (some [⟨.mk 1 "p:t" "c" none none [], some (.mk 0 "p" "p" (some "file:///P.java") none [])⟩,
        ⟨.mk 0 "p" "p" (some "file:///P.java") none [], none⟩]) [] false []).invocations =
      ((dedupInclude [⟨.mk 1 "p:t" "c" none none [], some (.mk 0 "p" "p" (some "file:///P.java") none [])⟩,
        ⟨.mk 0 "p" "p" (some "file:///P.java") none [], none⟩]).filter (fun x => x.uri.isSome)).map
        (fun x => (x.uri.getD "", idSuffix x.id))) :=
  c6_selection_dedup ⟨[], 2⟩ [] false []
    [⟨.mk 1 "p:t" "c" none none [], some (.mk 0 "p" "p" (some "file:///P.java") none [])⟩,
     ⟨.mk 0 "p" "p" (some "file:///P.java") none [], none⟩]
    (.mk 1 "p:t" "c" none none []) (.mk 0 "p" "p" (some "file:///P.java") none [])
    (List.mem_cons_self _ _) rfl rfl (by decide)

/-! ## Tree lemmas -/

theorem childGet_none (l : List TItem) (id : String) (h : childGet l id = none) :
    ∀ x ∈ l, x.id ≠ id := by
  intro x hx
  have := List.find?_eq_none.1 h x hx
  simpa using this

theorem childGet_mem (l : List TItem) (id : String) (x : TItem)
    (h : childGet l id = some x) : x ∈ l :=
  List.mem_of_find?_eq_some h

theorem childGet_id (l : List TItem) (id : String) (x : TItem)
    (h : childGet l id = some x) : x.id = id := by
  have := List.find?_some h
  simpa using this

theorem mem_childAdd_self (l : List TItem) (it : TItem) : it ∈ childAdd l it := by
  unfold childAdd
  by_cases h : l.any (fun x => x.id = it.id)
  · rw [if_pos h]
    obtain ⟨x, hx, hxe⟩ := List.any_eq_true.1 h
    exact List.mem_map.2 ⟨x, hx, by rw [if_pos (of_decide_eq_true hxe)]⟩
  · rw [if_neg h]
    exact List.mem_append_right _ (List.mem_singleton.2 rfl)

theorem mem_childAdd_of_ne (l : List TItem) (it x : TItem) (hx : x ∈ l)
    (h : x.id ≠ it.id) : x ∈ childAdd l it := by
  unfold childAdd
  by_cases hb : l.any (fun y => y.id = it.id)
  · rw [if_pos hb]
    exact List.mem_map.2 ⟨x, hx, by rw [if_neg h]⟩
  · rw [if_neg hb]
    exact List.mem_append_left _ hx

theorem childAdd_mem (l : List TItem) (it : TItem) :
    ∀ x ∈ childAdd l it, x = it ∨ x ∈ l := by
  intro x hx
  unfold childAdd at hx
  by_cases hb : l.any (fun y => y.id = it.id)
  · rw [if_pos hb] at hx
    obtain ⟨y, hy, hyx⟩ := List.mem_map.1 hx
    by_cases hy2 : y.id = it.id
    · rw [if_pos hy2] at hyx; exact Or.inl hyx.symm
    · rw [if_neg hy2] at hyx; exact Or.inr (hyx ▸ hy)
  · rw [if_neg hb] at hx
    rcases List.mem_append.1 hx with h1 | h1
    · exact Or.inr h1
    · exact Or.inl (List.mem_singleton.1 h1)

theorem childAdd_get_ne (l : List TItem) (it : TItem) (id : String)
    (h : it.id ≠ id) : childGet (childAdd l it) id = childGet l id := by
  unfold childAdd childGet
  by_cases hb : l.any (fun y => y.id = it.id)
  · rw [if_pos hb]
    clear hb
    induction l with
    | nil => rfl
    | cons a as ih =>
        rw [List.map_cons]
        by_cases ha : a.id = it.id
        · rw [if_pos ha]
          simp only [List.find?_cons, decide_eq_false h,
            decide_eq_false (show ¬(a.id = id) by rw [ha]; exact h)]
          exact ih
        · rw [if_neg ha]
          simp only [List.find?_cons]
          cases hd : (decide (a.id = id)) with
          | true => rfl
          | false => exact ih
  · rw [if_neg hb, List.find?_append]
    have h2 : List.find? (fun x => decide (x.id = id)) [it] = none := by
      simp [decide_eq_false h]
    rw [h2]
    simp

theorem allItems_mk (n : Nat) (i l : String) (u : Option String) (r : Option SRange)
    (cs : List TItem) :
    allItems (.mk n i l u r cs) = .mk n i l u r cs :: allItemsList cs := by
  rw [allItems]

theorem mem_allItemsList (l : List TItem) (x : TItem) :
    x ∈ allItemsList l ↔ ∃ y ∈ l, x ∈ allItems y := by
  induction l with
  | nil => rw [allItemsList]; simp
  | cons a as ih =>
      rw [allItemsList, List.mem_append, ih]
      constructor
      · rintro (h | ⟨y, hy, hx⟩)
        · exact ⟨a, List.mem_cons_self a as, h⟩
        · exact ⟨y, List.mem_cons_of_mem a hy, hx⟩
      · rintro ⟨y, hy, hx⟩
        rcases List.mem_cons.1 hy with rfl | hy2
        · exact Or.inl hx
        · exact Or.inr ⟨y, hy2, hx⟩

theorem self_mem_allItems (x : TItem) : x ∈ allItems x := by
  match x with
  | .mk n i l u r cs => rw [allItems]; exact List.mem_cons_self _ _

theorem mem_allItems_of_child (s x : TItem) (hx : x ∈ s.children) :
    x ∈ allItems s := by
  match s with
  | .mk n i l u r cs =>
    rw [allItems]
    exact List.mem_cons_of_mem _ ((mem_allItemsList cs x).2 ⟨x, hx, self_mem_allItems x⟩)

theorem mem_allItems_cases (w x : TItem) (hx : x ∈ allItems w) :
    x = w ∨ ∃ ch ∈ w.children, x ∈ allItems ch := by
  match w with
  | .mk n i l u r cs =>
    rw [allItems] at hx
    rcases List.mem_cons.1 hx with h | h
    · exact Or.inl h
    · exact Or.inr ((mem_allItemsList cs x).1 h)

theorem mem_allItems_of_mem_child_allItems (s ch x : TItem)
    (hch : ch ∈ s.children) (hx : x ∈ allItems ch) : x ∈ allItems s := by
  match s with
  | .mk n i l u r cs =>
    rw [allItems]
    exact List.mem_cons_of_mem _ ((mem_allItemsList cs x).2 ⟨ch, hch, hx⟩)

theorem withChildren_children (x : TItem) (cs : List TItem) :
    (x.withChildren cs).children = cs := by cases x; rfl

theorem withChildren_nonce (x : TItem) (cs : List TItem) :
    (x.withChildren cs).nonce = x.nonce := by cases x; rfl

theorem withChildren_id (x : TItem) (cs : List TItem) :
    (x.withChildren cs).id = x.id := by cases x; rfl

theorem withChildren_label (x : TItem) (cs : List TItem) :
    (x.withChildren cs).label = x.label := by cases x; rfl

theorem withChildren_uri (x : TItem) (cs : List TItem) :
    (x.withChildren cs).uri = x.uri := by cases x; rfl

theorem withChildren_range (x : TItem) (cs : List TItem) :
    (x.withChildren cs).range = x.range := by cases x; rfl

theorem withChildren_withChildren (x : TItem) (a b : List TItem) :
    (x.withChildren a).withChildren b = x.withChildren b := by cases x; rfl

theorem withChildren_self (x : TItem) : x.withChildren x.children = x := by
  cases x; rfl

theorem withRange_nonce (x : TItem) (r : Option SRange) :
    (x.withRange r).nonce = x.nonce := by cases x; rfl

theorem withRange_id (x : TItem) (r : Option SRange) :
    (x.withRange r).id = x.id := by cases x; rfl

theorem withRange_uri (x : TItem) (r : Option SRange) :
    (x.withRange r).uri = x.uri := by cases x; rfl

theorem withRange_children (x : TItem) (r : Option SRange) :
    (x.withRange r).children = x.children := by cases x; rfl

/-! ## The during-run dynamic-nesting loop of `updateTests` -/

/-- Keys of the `parentTests` accumulator have distinct ids: they are
children of `s`, and `s`'s children have distinct ids and nonces. -/
theorem keys_ids_nodup (s : TItem) (hids : (s.children.map TItem.id).Nodup) :
    ∀ (pts : List (TItem × List TItem)), (∀ e ∈ pts, e.1 ∈ s.children) →
      (pts.map (fun e => e.1.nonce)).Nodup →
      (pts.map (fun e => e.1.id)).Nodup := by
  intro pts
  induction pts with
  | nil => intro _ _; simp
  | cons e rest ih =>
      intro hmem hnd
      rw [List.map_cons, List.nodup_cons] at hnd ⊢
      refine ⟨?_, ih (fun x hx => hmem x (List.mem_cons_of_mem e hx)) hnd.2⟩
      intro hcon
      obtain ⟨e2, he2, heq⟩ := List.mem_map.1 hcon
      have h1 : e2.1 = e.1 :=
        List.inj_on_of_nodup_map hids
          (hmem e2 (List.mem_cons_of_mem e he2)) (hmem e (List.mem_cons_self e rest)) heq
      exact hnd.1 (List.mem_map.2 ⟨e2, he2, by rw [h1]⟩)

/-- Unfolding of one `updateTests` loop step for a during-run test whose id
is unknown to the current suite. -/
theorem updateTestsStep_fresh (s : TItem) (f : Nat) (ca : List TItem)
    (pt : List (TItem × List TItem)) (t : TestCase)
    (h : childGet s.children t.id = none) :
    updateTestsStep true ⟨s, f, ca, pt⟩ t =
      (match parentsOf s t.id with
       | [p] =>
          let isNew := (pt.find? (fun e => e.1.nonce = p.nonce)).isNone
          let pts1 := if isNew then pt ++ [(p, [])] else pt
          let ch1 := if isNew then ca ++ [p] else ca
          let nw := createTestItem f t.id (dynLabel t.name p.label) none
          ⟨s, f + 1, ch1, pts1.map (ptsAppend p.nonce nw)⟩
       | _ => ⟨s, f, ca, pt⟩) := by
  unfold updateTestsStep
  show (match childGet s.children t.id with
        | some ct1 => _
        | none => _) = _
  rw [h]
  rfl

theorem dynInv_weaken (s : TItem) (done : List TestCase) (t : TestCase)
    (pt : List (TItem × List TItem)) (hinv : DynInv s done pt)
    (hnp : ∀ p, parentsOf s t.id ≠ [p]) : DynInv s (done ++ [t]) pt := by
  obtain ⟨h1, h2, h3, h4⟩ := hinv
  refine ⟨h1, h2, ?_, ?_⟩
  · intro e he x hx
    obtain ⟨t2, ht2, hrest⟩ := h3 e he x hx
    exact ⟨t2, List.mem_append_left _ ht2, hrest⟩
  · intro t2 ht2 p hp
    rcases List.mem_append.1 ht2 with h5 | h5
    · exact h4 t2 h5 p hp
    · have ht : t2 = t := List.mem_singleton.1 h5
      subst ht
      exact absurd hp (hnp p)

theorem ptsAppend_fst (pn : Nat) (nw : TItem) (e : TItem × List TItem) :
    (ptsAppend pn nw e).1 = e.1 := by
  unfold ptsAppend
  by_cases hc : e.1.nonce = pn
  · rw [if_pos hc]
  · rw [if_neg hc]

theorem ptsAppend_of_ne (pn : Nat) (nw : TItem) (e : TItem × List TItem)
    (hc : ¬(e.1.nonce = pn)) : ptsAppend pn nw e = e := by
  unfold ptsAppend
  rw [if_neg hc]

theorem ptsAppend_of_eq (pn : Nat) (nw : TItem) (e : TItem × List TItem)
    (hc : e.1.nonce = pn) : ptsAppend pn nw e = (e.1, e.2 ++ [nw]) := by
  unfold ptsAppend
  rw [if_pos hc]

theorem map_ptsAppend_nonces (pn : Nat) (nw : TItem) (pt : List (TItem × List TItem)) :
    (pt.map (ptsAppend pn nw)).map (fun e => e.1.nonce) = pt.map (fun e => e.1.nonce) := by
  rw [List.map_map]
  refine List.map_congr_left ?_
  intro e he
  simp [Function.comp, ptsAppend_fst]

theorem map_ptsAppend_id (pn : Nat) (nw : TItem) :
    ∀ pt : List (TItem × List TItem), (∀ e ∈ pt, ¬(e.1.nonce = pn)) →
      pt.map (ptsAppend pn nw) = pt := by
  intro pt hpt
  induction pt with
  | nil => rfl
  | cons a as ih =>
      rw [List.map_cons, ptsAppend_of_ne _ _ _ (hpt a (List.mem_cons_self a as)),
        ih (fun x hx => hpt x (List.mem_cons_of_mem a hx))]

/-- One loop step on a during-run test with unknown id preserves the suite
object and the `parentTests` invariant, the processed test now counted. -/
theorem dynInv_step (s : TItem) (t : TestCase) (done : List TestCase)
    (f : Nat) (ca : List TItem) (pt : List (TItem × List TItem))
    (hnn : (s.children.map TItem.nonce).Nodup)
    (h : childGet s.children t.id = none)
    (hinv : DynInv s done pt) :
    ∃ f2 ca2 pt2, updateTestsStep true ⟨s, f, ca, pt⟩ t = ⟨s, f2, ca2, pt2⟩ ∧
      DynInv s (done ++ [t]) pt2 := by
  obtain ⟨h1, h2, h3, h4⟩ := hinv
  rw [updateTestsStep_fresh s f ca pt t h]
  cases hp : parentsOf s t.id with
  | nil =>
      exact ⟨f, ca, pt, rfl,
        dynInv_weaken s done t pt ⟨h1, h2, h3, h4⟩
          (fun p hcon => by rw [hp] at hcon; cases hcon)⟩
  | cons p rest =>
    cases rest with
    | cons q rest2 =>
        exact ⟨f, ca, pt, rfl,
          dynInv_weaken s done t pt ⟨h1, h2, h3, h4⟩
            (fun p2 hcon => by rw [hp] at hcon; simp at hcon)⟩
    | nil =>
      have hpmem : p ∈ s.children := by
        have hpp : p ∈ parentsOf s t.id := by rw [hp]; exact List.mem_singleton_self p
        unfold parentsOf at hpp
        exact List.mem_of_mem_filter hpp
      by_cases hnewb : (pt.find? (fun e => e.1.nonce = p.nonce)).isNone = true
      · -- first dynamic child collected for this parent
        have hnone : pt.find? (fun e => e.1.nonce = p.nonce) = none :=
          Option.isNone_iff_eq_none.1 hnewb
        have hnot : ∀ e ∈ pt, ¬(e.1.nonce = p.nonce) := by
          intro e he
          have hh := List.find?_eq_none.1 hnone e he
          simpa using hh
        refine ⟨f + 1, ca ++ [p],
          pt ++ [(p, [TItem.mk f t.id (dynLabel t.name p.label) none none []])], ?_, ?_⟩
        · simp only [hnewb, if_true, List.map_append]
          rw [map_ptsAppend_id _ _ pt hnot]
          simp [ptsAppend, createTestItem]
        · refine ⟨?_, ?_, ?_, ?_⟩
          · intro e he
            rcases List.mem_append.1 he with h5 | h5
            · exact h1 e h5
            · rw [List.mem_singleton.1 h5]; exact hpmem
          · rw [List.map_append, List.nodup_append]
            refine ⟨h2, by simp, ?_⟩
            intro a ha hb
            have hab : a = p.nonce := by simpa using hb
            subst hab
            obtain ⟨e, he, hen⟩ := List.mem_map.1 ha
            exact hnot e he hen
          · intro e he x hx
            rcases List.mem_append.1 he with h5 | h5
            · obtain ⟨t2, ht2, hrest⟩ := h3 e h5 x hx
              exact ⟨t2, List.mem_append_left _ ht2, hrest⟩
            · rw [List.mem_singleton.1 h5] at hx ⊢
              have hxe : x = TItem.mk f t.id (dynLabel t.name p.label) none none [] := by
                simpa using hx
              exact ⟨t, List.mem_append_right _ (List.mem_singleton_self t), f,
                by rw [hxe], by rw [hp]⟩
          · intro t2 ht2 p2 hp2
            rcases List.mem_append.1 ht2 with h5 | h5
            · obtain ⟨e, he, hkey, x, hx, hsh⟩ := h4 t2 h5 p2 hp2
              exact ⟨e, List.mem_append_left _ he, hkey, x, hx, hsh⟩
            · have ht : t2 = t := List.mem_singleton.1 h5
              subst ht
              have hpe : p = p2 := by rw [hp] at hp2; simpa using hp2
              subst hpe
              exact ⟨(p, [TItem.mk f t2.id (dynLabel t2.name p.label) none none []]),
                List.mem_append_right _ (List.mem_singleton_self _), rfl,
                TItem.mk f t2.id (dynLabel t2.name p.label) none none [],
                List.mem_singleton_self _, f, rfl⟩
      · -- the parent already collects dynamic children
        have hnewf : (pt.find? (fun e => e.1.nonce = p.nonce)).isNone = false :=
          Bool.eq_false_iff.2 hnewb
        obtain ⟨e0, hfind⟩ : ∃ e0, pt.find? (fun e => e.1.nonce = p.nonce) = some e0 := by
          cases hfd : pt.find? (fun e => e.1.nonce = p.nonce) with
          | none => rw [hfd] at hnewf; cases hnewf
          | some e0 => exact ⟨e0, rfl⟩
        have he0mem : e0 ∈ pt := List.mem_of_find?_eq_some hfind
        have he0n : e0.1.nonce = p.nonce := by
          have hh := List.find?_some hfind
          simpa using hh
        have he0p : e0.1 = p := List.inj_on_of_nodup_map hnn (h1 e0 he0mem) hpmem he0n
        refine ⟨f + 1, ca,
          pt.map (ptsAppend p.nonce (TItem.mk f t.id (dynLabel t.name p.label) none none [])),
          ?_, ?_⟩
        · simp only [hnewf, Bool.false_eq_true, if_false]
          rfl
        · refine ⟨?_, ?_, ?_, ?_⟩
          · intro e he
            obtain ⟨e2, he2, heq⟩ := List.mem_map.1 he
            rw [← heq, ptsAppend_fst]
            exact h1 e2 he2
          · rw [map_ptsAppend_nonces]
            exact h2
          · intro e he x hx
            obtain ⟨e2, he2, heq⟩ := List.mem_map.1 he
            by_cases hc : e2.1.nonce = p.nonce
            · rw [ptsAppend_of_eq _ _ _ hc] at heq
              rw [← heq] at hx ⊢
              rcases List.mem_append.1 hx with h6 | h6
              · obtain ⟨t2, ht2, n2, hsh, hpar⟩ := h3 e2 he2 x h6
                exact ⟨t2, List.mem_append_left _ ht2, n2, hsh, hpar⟩
              · have he2p : e2.1 = p :=
                  List.inj_on_of_nodup_map hnn (h1 e2 he2) hpmem hc
                have hxe : x = TItem.mk f t.id (dynLabel t.name p.label) none none [] := by
                  simpa using h6
                refine ⟨t, List.mem_append_right _ (List.mem_singleton_self t), f, ?_, ?_⟩
                · show x = TItem.mk f t.id (dynLabel t.name (e2.1, e2.2 ++
                    [TItem.mk f t.id (dynLabel t.name p.label) none none []]).1.label) none none []
                  rw [hxe]
                  show _ = TItem.mk f t.id (dynLabel t.name e2.1.label) none none []
                  rw [he2p]
                · show parentsOf s t.id = [(e2.1, e2.2 ++
                    [TItem.mk f t.id (dynLabel t.name p.label) none none []]).1]
                  show parentsOf s t.id = [e2.1]
                  rw [he2p, hp]
            · rw [ptsAppend_of_ne _ _ _ hc] at heq
              rw [← heq] at hx ⊢
              obtain ⟨t2, ht2, n2, hsh, hpar⟩ := h3 e2 he2 x hx
              exact ⟨t2, List.mem_append_left _ ht2, n2, hsh, hpar⟩
          · intro t2 ht2 p2 hp2
            rcases List.mem_append.1 ht2 with h5 | h5
            · obtain ⟨e, he, hkey, x, hx, n2, hsh⟩ := h4 t2 h5 p2 hp2
              refine ⟨ptsAppend p.nonce (TItem.mk f t.id (dynLabel t.name p.label) none none []) e,
                List.mem_map.2 ⟨e, he, rfl⟩, by rw [ptsAppend_fst]; exact hkey, x, ?_, n2, hsh⟩
              by_cases hc : e.1.nonce = p.nonce
              · rw [ptsAppend_of_eq _ _ _ hc]
                exact List.mem_append_left _ hx
              · rw [ptsAppend_of_ne _ _ _ hc]
                exact hx
            · have ht : t2 = t := List.mem_singleton.1 h5
              subst ht
              have hpe : p = p2 := by rw [hp] at hp2; simpa using hp2
              subst hpe
              refine ⟨(e0.1, e0.2 ++ [TItem.mk f t2.id (dynLabel t2.name p.label) none none []]),
                List.mem_map.2 ⟨e0, he0mem, ptsAppend_of_eq _ _ _ he0n⟩, he0p,
                TItem.mk f t2.id (dynLabel t2.name p.label) none none [],
                List.mem_append_right _ (List.mem_singleton_self _), f, rfl⟩

/-- The whole during-run loop over a snapshot of unknown test ids keeps the
suite object and establishes the `parentTests` invariant for the snapshot. -/
theorem dynLoop (s : TItem) (hnn : (s.children.map TItem.nonce).Nodup) :
    ∀ (ts done : List TestCase) (f : Nat) (ca : List TItem)
      (pt : List (TItem × List TItem)),
      (∀ t ∈ ts, childGet s.children t.id = none) → DynInv s done pt →
      ∃ f2 ca2 pt2,
        ts.foldl (updateTestsStep true) ⟨s, f, ca, pt⟩ = ⟨s, f2, ca2, pt2⟩ ∧
        DynInv s (done ++ ts) pt2 := by
  intro ts
  induction ts with
  | nil =>
      intro done f ca pt _ hinv
      exact ⟨f, ca, pt, rfl, by rw [List.append_nil]; exact hinv⟩
  | cons t ts2 ih =>
      intro done f ca pt hfresh hinv
      obtain ⟨f2, ca2, pt2, hstep, hinv2⟩ :=
        dynInv_step s t done f ca pt hnn (hfresh t (List.mem_cons_self t ts2)) hinv
      rw [List.foldl_cons, hstep]
      obtain ⟨f3, ca3, pt3, hfold, hinv3⟩ :=
        ih (done ++ [t]) f2 ca2 pt2 (fun x hx => hfresh x (List.mem_cons_of_mem t hx)) hinv2
      refine ⟨f3, ca3, pt3, hfold, ?_⟩
      rw [List.append_cons]
      exact hinv3

theorem ptFold_shape : ∀ (entries : List (TItem × List TItem)) (p : TItem × Nat),
    ∃ cs2 f2, entries.foldl ptFoldStep p = (p.1.withChildren cs2, f2) := by
  intro entries
  induction entries with
  | nil =>
      intro p
      refine ⟨p.1.children, p.2, ?_⟩
      rw [withChildren_self, Prod.mk.eta]
      rfl
  | cons a as ih =>
      intro p
      rw [List.foldl_cons]
      obtain ⟨cs2, f2, heq⟩ := ih (ptFoldStep p a)
      refine ⟨cs2, f2, ?_⟩
      rw [heq]
      show ((ptFoldStep p a).1.withChildren cs2, f2) = _
      unfold ptFoldStep
      rw [withChildren_withChildren]

theorem ptFold_preserve : ∀ (entries : List (TItem × List TItem)) (p : TItem × Nat)
    (x : TItem), x ∈ p.1.children → (∀ e ∈ entries, e.1.id ≠ x.id) →
    x ∈ (entries.foldl ptFoldStep p).1.children := by
  intro entries
  induction entries with
  | nil => intro p x hx _; exact hx
  | cons a as ih =>
      intro p x hx hne
      rw [List.foldl_cons]
      refine ih _ x ?_ (fun e2 he2 => hne e2 (List.mem_cons_of_mem a he2))
      show x ∈ (ptFoldStep p a).1.children
      unfold ptFoldStep
      rw [withChildren_children]
      exact mem_childAdd_of_ne _ _ x hx
        (fun hcon => (hne a (List.mem_cons_self a as)) hcon.symm)

theorem ptFold_mem : ∀ (entries : List (TItem × List TItem)) (p : TItem × Nat),
    (entries.map (fun e => e.1.id)).Nodup →
    ∀ e ∈ entries, ∃ n, TItem.mk n e.1.id e.1.label e.1.uri e.1.range e.2 ∈
      (entries.foldl ptFoldStep p).1.children := by
  intro entries
  induction entries with
  | nil => intro p _ e he; exact absurd he (List.not_mem_nil e)
  | cons a as ih =>
      intro p hnd e he
      rw [List.map_cons, List.nodup_cons] at hnd
      rw [List.foldl_cons]
      rcases List.mem_cons.1 he with rfl | he2
      · refine ⟨p.2, ?_⟩
        refine ptFold_preserve as (ptFoldStep p e) _ ?_ ?_
        · show TItem.mk p.2 e.1.id e.1.label e.1.uri e.1.range e.2 ∈
            (ptFoldStep p e).1.children
          unfold ptFoldStep
          rw [withChildren_children]
          exact mem_childAdd_self _ _
        · intro e2 he2 hcon
          exact hnd.1 (List.mem_map.2 ⟨e2, he2, hcon⟩)
      · exact ih (ptFoldStep p a) hnd.2 e he2

theorem ptFold_children_sub : ∀ (entries : List (TItem × List TItem)) (p : TItem × Nat)
    (x : TItem), x ∈ (entries.foldl ptFoldStep p).1.children →
    x ∈ p.1.children ∨ ∃ e ∈ entries, ∃ n,
      x = TItem.mk n e.1.id e.1.label e.1.uri e.1.range e.2 := by
  intro entries
  induction entries with
  | nil => intro p x hx; exact Or.inl hx
  | cons a as ih =>
      intro p x hx
      rw [List.foldl_cons] at hx
      rcases ih (ptFoldStep p a) x hx with h1 | h1
      · have h2 : x ∈ childAdd p.1.children
            (TItem.mk p.2 a.1.id a.1.label a.1.uri a.1.range a.2) := by
          unfold ptFoldStep at h1
          rwa [withChildren_children] at h1
        rcases childAdd_mem _ _ x h2 with h3 | h3
        · exact Or.inr ⟨a, List.mem_cons_self a as, p.2, h3⟩
        · exact Or.inl h3
      · obtain ⟨e, he, n, hsh⟩ := h1
        exact Or.inr ⟨e, List.mem_cons_of_mem a he, n, hsh⟩

/-- Unfolding of `updateTests` during a run when the suite is found and not
recreated: the snapshot file is absent or equal to the stored suite uri. -/
theorem updateTests_keep_texec (c : Ctrl) (snap : TestSuiteSnap) (s : TItem)
    (hs : childGet c.items snap.name = some s)
    (huri : snap.file = none ∨ s.uri = snap.file) :
    updateTests c snap true =
      (let acc := (snap.tests.getD []).foldl (updateTestsStep true)
         ⟨s, c.nextNonce, [], []⟩
       let pr := acc.parentTests.foldl ptFoldStep (acc.cs, acc.fresh)
       { items := c.items.map (fun x => if x.nonce = pr.1.nonce then pr.1 else x),
         nextNonce := pr.2 }) := by
  have hcond : ¬(snap.file.isSome = true ∧ ¬(s.uri = snap.file)) := by
    rcases huri with h | h
    · intro hcon; rw [h] at hcon; exact absurd hcon.1 (by simp)
    · intro hcon; exact hcon.2 h
  simp only [updateTests, hs]
  rw [if_neg hcond]
  simp only [not_true, false_and, if_false, if_true]

/-- During-run reconciliation of a snapshot of unknown test ids: the suite
object is kept; a test with exactly one prefix-matching existing child is
nested (with the derived label) under a fresh item carrying the matched
child's id; a test with zero or several prefix matches introduces no item
with its id anywhere in the suite subtree. -/
theorem updateTests_dynamic_spec (c : Ctrl) (snap : TestSuiteSnap) (s : TItem)
    (ts : List TestCase)
    (hs : childGet c.items snap.name = some s)
    (huri : snap.file = none ∨ s.uri = snap.file)
    (hts : snap.tests = some ts)
    (hfresh : ∀ t ∈ ts, childGet s.children t.id = none)
    (hnodup : (ts.map TestCase.id).Nodup)
    (hids : (s.children.map TItem.id).Nodup)
    (hnn : (s.children.map TItem.nonce).Nodup) :
    ∃ s2 ∈ (updateTests c snap true).items, s2.nonce = s.nonce ∧ s2.id = s.id ∧
      (∀ t ∈ ts, ∀ p, parentsOf s t.id = [p] →
        ∃ pc ∈ s2.children, pc.id = p.id ∧
          ∃ d ∈ pc.children, d.id = t.id ∧ d.label = dynLabel t.name p.label) ∧
      (∀ t ∈ ts, (∀ p, parentsOf s t.id ≠ [p]) →
        ∀ x ∈ allItems s2, x.id = t.id → ∃ y ∈ allItems s, y.id = t.id) := by
  rw [updateTests_keep_texec c snap s hs huri, hts]
  obtain ⟨f2, ca2, pt2, hfold, hinv0⟩ :=
    dynLoop s hnn ts [] c.nextNonce [] []
      hfresh
      ⟨fun e he => absurd he (List.not_mem_nil e), by simp,
       fun e he => absurd he (List.not_mem_nil e),
       fun t ht => absurd ht (List.not_mem_nil t)⟩
  have hinv : DynInv s ts pt2 := by rwa [List.nil_append] at hinv0
  obtain ⟨hI1, hI2, hI3, hI4⟩ := hinv
  show ∃ s2 ∈ (Ctrl.mk _ _).items, _
  dsimp only [Option.getD]
  rw [hfold]
  dsimp only
  obtain ⟨cs2, f3, hpr⟩ := ptFold_shape pt2 (s, f2)
  rw [hpr]
  dsimp only
  have hsmem : s ∈ c.items := childGet_mem _ _ _ hs
  refine ⟨s.withChildren cs2, ?_, withChildren_nonce s cs2, withChildren_id s cs2, ?_, ?_⟩
  · refine List.mem_map.2 ⟨s, hsmem, ?_⟩
    rw [withChildren_nonce, if_pos rfl]
  · -- unique prefix match: nested under the re-created parent item
    intro t ht p hp
    obtain ⟨e, he, hkey, x, hx, n2, hsh⟩ := hI4 t ht p hp
    have hidn : (pt2.map (fun e => e.1.id)).Nodup := keys_ids_nodup s hids pt2 hI1 hI2
    obtain ⟨n3, hmem3⟩ := ptFold_mem pt2 (s, f2) hidn e he
    rw [hpr] at hmem3
    have hmem4 : TItem.mk n3 e.1.id e.1.label e.1.uri e.1.range e.2 ∈ cs2 := by
      rwa [show ((s.withChildren cs2, f3) : TItem × Nat).1.children =
        (s.withChildren cs2).children from rfl, withChildren_children] at hmem3
    refine ⟨TItem.mk n3 e.1.id e.1.label e.1.uri e.1.range e.2, ?_, ?_, x, hx, ?_, ?_⟩
    · rw [withChildren_children]
      exact hmem4
    · show e.1.id = p.id
      rw [hkey]
    · show x.id = t.id
      rw [hsh]
      rfl
    · show x.label = dynLabel t.name p.label
      rw [hsh]
      rfl
  · -- zero or several prefix matches: the id is not introduced anywhere
    intro t ht hnp x hx hxid
    rcases mem_allItems_cases _ x hx with rfl | ⟨ch, hch, hxch⟩
    · refine ⟨s, self_mem_allItems s, ?_⟩
      rw [← hxid, withChildren_id]
    · rw [withChildren_children] at hch
      have hch2 : ch ∈ (pt2.foldl ptFoldStep (s, f2)).1.children := by
        rw [hpr]
        show ch ∈ (s.withChildren cs2).children
        rw [withChildren_children]
        exact hch
      rcases ptFold_children_sub pt2 (s, f2) ch hch2 with h1 | h1
      · exact ⟨x, mem_allItems_of_mem_child_allItems s ch x h1 hxch, hxid⟩
      · obtain ⟨e, he, n4, rfl⟩ := h1
        rcases mem_allItems_cases _ x hxch with rfl | ⟨d, hd, hxd⟩
        · exact ⟨e.1, mem_allItems_of_child s e.1 (hI1 e he), hxid⟩
        · obtain ⟨t2, ht2, n5, hdsh, hpar⟩ := hI3 e he d hd
          rw [hdsh] at hxd
          rw [allItems] at hxd
          have hxe : x = TItem.mk n5 t2.id (dynLabel t2.name e.1.label) none none [] := by
            simpa [allItemsList] using hxd
          have hteq : t2 = t := by
            refine List.inj_on_of_nodup_map hnodup ht2 ht ?_
            rw [hxe] at hxid
            exact hxid
          subst hteq
          exact absurd hpar (hnp e.1)

/-! ## Frame lemmas for `updateTests` in during-run mode (claim C8) -/

/-- Generic unfolding of one `updateTests` loop step when the test id is
found among the current children. -/
theorem updateTestsStep_found (texec : Bool) (acc : UTAcc) (t : TestCase)
    (ct1 : TItem) (hg : childGet acc.cs.children t.id = some ct1) :
    updateTestsStep texec acc t =
      (let recreate := ct1.uri ≠ t.file
       let ct2 := if recreate then createTestItem acc.fresh t.id t.name t.file else ct1
       let cs2 := if recreate then acc.cs.withChildren (childAdd acc.cs.children ct2)
                  else acc.cs
       let fresh2 := if recreate then acc.fresh + 1 else acc.fresh
       let tr := asRange t.range
       let doRange := ¬texec ∧ tr.isSome
       let ct3 := if doRange then ct2.withRange tr else ct2
       let cs3 := if doRange then cs2.withChildren (childAdd cs2.children ct3) else cs2
       { acc with
         cs := cs3
         fresh := fresh2
         childrenAcc := acc.childrenAcc ++ [ct3] }) := by
  unfold updateTestsStep
  show (match childGet acc.cs.children t.id with
        | some ct1 => _
        | none => _) = _
  rw [hg]

/-- Generic unfolding of one `updateTests` loop step when the test id is
unknown to the current children. -/
theorem updateTestsStep_none (texec : Bool) (acc : UTAcc) (t : TestCase)
    (hg : childGet acc.cs.children t.id = none) :
    updateTestsStep texec acc t =
      (if texec then
        (match acc.cs.children.filter (fun it => jsStartsWith t.id it.id) with
         | [p] =>
             let isNew := (acc.parentTests.find? (fun e => e.1.nonce = p.nonce)).isNone
             let pts1 := if isNew then acc.parentTests ++ [(p, [])] else acc.parentTests
             let ch1 := if isNew then acc.childrenAcc ++ [p] else acc.childrenAcc
             let nw := createTestItem acc.fresh t.id (dynLabel t.name p.label) none
             { acc with
               fresh := acc.fresh + 1
               childrenAcc := ch1
               parentTests := pts1.map (ptsAppend p.nonce nw) }
         | _ => acc)
       else
        let nw := (createTestItem acc.fresh t.id t.name t.file).withRange (asRange t.range)
        { acc with
          cs := acc.cs.withChildren (childAdd acc.cs.children nw)
          fresh := acc.fresh + 1
          childrenAcc := acc.childrenAcc ++ [nw] }) := by
  unfold updateTestsStep
  show (match childGet acc.cs.children t.id with
        | some ct1 => _
        | none => _) = _
  rw [hg]

theorem texecInv_step (cs0 : TItem) (nn : Nat) (acc : UTAcc) (t : TestCase)
    (hinv : TexecInv cs0 nn acc) : TexecInv cs0 nn (updateTestsStep true acc t) := by
  obtain ⟨hA1, hA2, hA3, hB, hC⟩ := hinv
  have hdr : ¬(¬(true = true) ∧ (asRange t.range).isSome = true) := fun hcon => hcon.1 rfl
  cases hg : childGet acc.cs.children t.id with
  | some ct1 =>
      rw [updateTestsStep_found true acc t ct1 hg]
      dsimp only
      rw [if_neg hdr, if_neg hdr]
      by_cases hrec : ct1.uri ≠ t.file
      · rw [if_pos hrec, if_pos hrec, if_pos hrec]
        refine ⟨by rw [withChildren_nonce]; exact hA1,
                by rw [withChildren_id]; exact hA2,
                by rw [withChildren_range]; exact hA3, ?_,
                Nat.le_succ_of_le hC⟩
        intro x hx hlt
        rw [withChildren_children] at hx
        rcases childAdd_mem _ _ x hx with h1 | h1
        · exfalso
          rw [h1] at hlt
          exact absurd hlt (Nat.not_lt.2 hC)
        · exact hB x h1 hlt
      · rw [if_neg hrec, if_neg hrec, if_neg hrec]
        exact ⟨hA1, hA2, hA3, hB, hC⟩
  | none =>
      rw [updateTestsStep_none true acc t hg, if_pos rfl]
      cases hps : acc.cs.children.filter (fun it => jsStartsWith t.id it.id) with
      | nil => exact ⟨hA1, hA2, hA3, hB, hC⟩
      | cons p rest =>
        cases rest with
        | cons q rest2 => exact ⟨hA1, hA2, hA3, hB, hC⟩
        | nil => exact ⟨hA1, hA2, hA3, hB, Nat.le_succ_of_le hC⟩

theorem texecInv_fold (cs0 : TItem) (nn : Nat) :
    ∀ (ts : List TestCase) (acc : UTAcc), TexecInv cs0 nn acc →
      TexecInv cs0 nn (ts.foldl (updateTestsStep true) acc) := by
  intro ts
  induction ts with
  | nil => intro acc h; exact h
  | cons t ts2 ih =>
      intro acc h
      rw [List.foldl_cons]
      exact ih _ (texecInv_step cs0 nn acc t h)

/-- Variant of `ptFold_children_sub` that also bounds the nonce of the
freshly created replacement items by the starting counter. -/
theorem ptFold_children_sub_ge : ∀ (entries : List (TItem × List TItem))
    (p : TItem × Nat) (x : TItem), x ∈ (entries.foldl ptFoldStep p).1.children →
    x ∈ p.1.children ∨ ∃ e ∈ entries, ∃ n, p.2 ≤ n ∧
      x = TItem.mk n e.1.id e.1.label e.1.uri e.1.range e.2 := by
  intro entries
  induction entries with
  | nil => intro p x hx; exact Or.inl hx
  | cons a as ih =>
      intro p x hx
      rw [List.foldl_cons] at hx
      rcases ih (ptFoldStep p a) x hx with h1 | h1
      · have h2 : x ∈ childAdd p.1.children
            (TItem.mk p.2 a.1.id a.1.label a.1.uri a.1.range a.2) := by
          unfold ptFoldStep at h1
          rwa [withChildren_children] at h1
        rcases childAdd_mem _ _ x h2 with h3 | h3
        · exact Or.inr ⟨a, List.mem_cons_self a as, p.2, Nat.le_refl _, h3⟩
        · exact Or.inl h3
      · obtain ⟨e, he, n, hge, hsh⟩ := h1
        exact Or.inr ⟨e, List.mem_cons_of_mem a he, n,
          Nat.le_of_succ_le (by exact hge), hsh⟩

/-- From the loop invariant, the item written back over the suite keeps
nonce, id and stored range, and its children with pre-existing nonces are
untouched original children. -/
theorem texecInv_result (cs0 : TItem) (nn : Nat) (acc : UTAcc)
    (hinv : TexecInv cs0 nn acc) :
    (acc.parentTests.foldl ptFoldStep (acc.cs, acc.fresh)).1.nonce = cs0.nonce ∧
    (acc.parentTests.foldl ptFoldStep (acc.cs, acc.fresh)).1.id = cs0.id ∧
    (acc.parentTests.foldl ptFoldStep (acc.cs, acc.fresh)).1.range = cs0.range ∧
    ∀ x ∈ (acc.parentTests.foldl ptFoldStep (acc.cs, acc.fresh)).1.children,
      x.nonce < nn → x ∈ cs0.children := by
  obtain ⟨hA1, hA2, hA3, hB, hC⟩ := hinv
  obtain ⟨cs2, f3, hpr⟩ := ptFold_shape acc.parentTests (acc.cs, acc.fresh)
  rw [hpr]
  refine ⟨by rw [withChildren_nonce]; exact hA1,
          by rw [withChildren_id]; exact hA2,
          by rw [withChildren_range]; exact hA3, ?_⟩
  intro x hx hlt
  have hx2 : x ∈ (acc.parentTests.foldl ptFoldStep (acc.cs, acc.fresh)).1.children := by
    rw [hpr]
    exact hx
  rcases ptFold_children_sub_ge acc.parentTests (acc.cs, acc.fresh) x hx2 with h1 | h1
  · exact hB x h1 hlt
  · obtain ⟨e, he, n, hge, hsh⟩ := h1
    exfalso
    rw [hsh] at hlt
    exact absurd hlt (Nat.not_lt.2 (Nat.le_trans hC hge))

/-- Unfolding of `updateTests` during a run when the suite is recreated
(found with a differing snapshot file) or created fresh (not found). -/
theorem updateTests_new_texec (c : Ctrl) (snap : TestSuiteSnap)
    (hnew : childGet c.items snap.name = none ∨
      ∃ cur, childGet c.items snap.name = some cur ∧
        snap.file.isSome = true ∧ ¬(cur.uri = snap.file)) :
    updateTests c snap true =
      (let nw := createTestItem c.nextNonce snap.name snap.name snap.file
       let acc := (snap.tests.getD []).foldl (updateTestsStep true)
         ⟨nw, c.nextNonce + 1, [], []⟩
       let pr := acc.parentTests.foldl ptFoldStep (acc.cs, acc.fresh)
       { items := (childAdd c.items nw).map
           (fun x => if x.nonce = pr.1.nonce then pr.1 else x),
         nextNonce := pr.2 }) := by
  rcases hnew with hs | ⟨cur, hs, hcond⟩
  · simp only [updateTests, hs]
    simp only [not_true, false_and, if_false, if_true]
  · simp only [updateTests, hs]
    rw [if_pos hcond]
    simp only [not_true, false_and, if_false, if_true]

/-- Combined frame property of the during-run loop and the parent
replacement fold, starting from a suite with empty accumulators. -/
theorem texec_whole (cs0 : TItem) (nn f0 : Nat) (ts : List TestCase) (hf : nn ≤ f0) :
    ((ts.foldl (updateTestsStep true) ⟨cs0, f0, [], []⟩).parentTests.foldl ptFoldStep
      ((ts.foldl (updateTestsStep true) ⟨cs0, f0, [], []⟩).cs,
       (ts.foldl (updateTestsStep true) ⟨cs0, f0, [], []⟩).fresh)).1.nonce = cs0.nonce ∧
    ((ts.foldl (updateTestsStep true) ⟨cs0, f0, [], []⟩).parentTests.foldl ptFoldStep
      ((ts.foldl (updateTestsStep true) ⟨cs0, f0, [], []⟩).cs,
       (ts.foldl (updateTestsStep true) ⟨cs0, f0, [], []⟩).fresh)).1.id = cs0.id ∧
    ((ts.foldl (updateTestsStep true) ⟨cs0, f0, [], []⟩).parentTests.foldl ptFoldStep
      ((ts.foldl (updateTestsStep true) ⟨cs0, f0, [], []⟩).cs,
       (ts.foldl (updateTestsStep true) ⟨cs0, f0, [], []⟩).fresh)).1.range = cs0.range ∧
    ∀ x ∈ ((ts.foldl (updateTestsStep true) ⟨cs0, f0, [], []⟩).parentTests.foldl ptFoldStep
      ((ts.foldl (updateTestsStep true) ⟨cs0, f0, [], []⟩).cs,
       (ts.foldl (updateTestsStep true) ⟨cs0, f0, [], []⟩).fresh)).1.children,
      x.nonce < nn → x ∈ cs0.children :=
  texecInv_result cs0 nn _
    (texecInv_fold cs0 nn ts ⟨cs0, f0, [], []⟩ ⟨rfl, rfl, rfl, fun x hx _ => hx, hf⟩)

/-! ## Claim C8: ranges are frozen during a run -/

/-- Claim C8: a during-run `updateTests` call never changes the stored
range of a pre-existing item.  Pre-existing items are those whose nonce
precedes the controller's allocation counter; every such suite item in the
result, and every such direct test item under it, existed before the call
with the same id and the same stored range. -/
theorem c8_ranges_frozen_during_run (c : Ctrl) (snap : TestSuiteSnap) :
    ∀ s2 ∈ (updateTests c snap true).items, s2.nonce < c.nextNonce →
      (∃ s ∈ c.items, s.nonce = s2.nonce ∧ s.id = s2.id ∧ s.range = s2.range) ∧
      ∀ t2 ∈ s2.children, t2.nonce < c.nextNonce →
        ∃ s ∈ c.items, ∃ t ∈ s.children,
          t.nonce = t2.nonce ∧ t.id = t2.id ∧ t.range = t2.range := by
  intro s2 hs2 hlt
  by_cases hkeep : ∃ cur, childGet c.items snap.name = some cur ∧
      (snap.file = none ∨ cur.uri = snap.file)
  · obtain ⟨cur, hg, huri⟩ := hkeep
    rw [updateTests_keep_texec c snap cur hg huri] at hs2
    dsimp only at hs2
    obtain ⟨x, hx, hmap⟩ := List.mem_map.1 hs2
    obtain ⟨hr1, hr2, hr3, hr4⟩ :=
      texec_whole cur c.nextNonce c.nextNonce (snap.tests.getD []) (Nat.le_refl _)
    by_cases hxn : x.nonce =
        (((snap.tests.getD []).foldl (updateTestsStep true)
          ⟨cur, c.nextNonce, [], []⟩).parentTests.foldl ptFoldStep
          (((snap.tests.getD []).foldl (updateTestsStep true)
            ⟨cur, c.nextNonce, [], []⟩).cs,
           ((snap.tests.getD []).foldl (updateTestsStep true)
            ⟨cur, c.nextNonce, [], []⟩).fresh)).1.nonce
    · rw [if_pos hxn] at hmap
      subst hmap
      constructor
      · exact ⟨cur, childGet_mem _ _ _ hg, by rw [hr1], by rw [hr2], by rw [hr3]⟩
      · intro t2 ht2 hlt2
        exact ⟨cur, childGet_mem _ _ _ hg, t2, hr4 t2 ht2 hlt2, rfl, rfl, rfl⟩
    · rw [if_neg hxn] at hmap
      subst hmap
      exact ⟨⟨x, hx, rfl, rfl, rfl⟩, fun t2 ht2 _ => ⟨x, hx, t2, ht2, rfl, rfl, rfl⟩⟩
  · have hnew : childGet c.items snap.name = none ∨
        ∃ cur, childGet c.items snap.name = some cur ∧
          snap.file.isSome = true ∧ ¬(cur.uri = snap.file) := by
      cases hg : childGet c.items snap.name with
      | none => exact Or.inl rfl
      | some cur =>
          have hnor : ¬(snap.file = none ∨ cur.uri = snap.file) :=
            fun hor => hkeep ⟨cur, hg, hor⟩
          rw [not_or] at hnor
          refine Or.inr ⟨cur, rfl, ?_, hnor.2⟩
          rw [Option.isSome_iff_ne_none]
          exact hnor.1
    rw [updateTests_new_texec c snap hnew] at hs2
    dsimp only at hs2
    obtain ⟨x, hx, hmap⟩ := List.mem_map.1 hs2
    obtain ⟨hr1, hr2, hr3, hr4⟩ :=
      texec_whole (createTestItem c.nextNonce snap.name snap.name snap.file)
        c.nextNonce (c.nextNonce + 1) (snap.tests.getD []) (Nat.le_succ _)
    by_cases hxn : x.nonce =
        (((snap.tests.getD []).foldl (updateTestsStep true)
          ⟨createTestItem c.nextNonce snap.name snap.name snap.file,
           c.nextNonce + 1, [], []⟩).parentTests.foldl ptFoldStep
          (((snap.tests.getD []).foldl (updateTestsStep true)
            ⟨createTestItem c.nextNonce snap.name snap.name snap.file,
             c.nextNonce + 1, [], []⟩).cs,
           ((snap.tests.getD []).foldl (updateTestsStep true)
            ⟨createTestItem c.nextNonce snap.name snap.name snap.file,
             c.nextNonce + 1, [], []⟩).fresh)).1.nonce
    · exfalso
      rw [if_pos hxn] at hmap
      rw [← hmap] at hlt
      rw [hr1] at hlt
      exact absurd hlt (Nat.lt_irrefl _)
    · rw [if_neg hxn] at hmap
      subst hmap
      rcases childAdd_mem _ _ x hx with h1 | h1
      · exfalso
        rw [h1] at hlt
        exact absurd hlt (Nat.lt_irrefl _)
      · exact ⟨⟨x, h1, rfl, rfl, rfl⟩, fun t2 ht2 _ => ⟨x, h1, t2, ht2, rfl, rfl, rfl⟩⟩

/-- Witness for C8 at a concrete input: a during-run snapshot carrying new
ranges for the suite and its known test leaves both stored ranges as they
were. -/
theorem c8_witness :
    (∃ s ∈ ([(.mk 0 "S" "S" (some "file:///S.java")
        (some ⟨⟨1, 0⟩, ⟨9, 0⟩⟩) [.mk 1 "t" "t" none (some ⟨⟨2, 0⟩, ⟨3, 0⟩⟩) []])] : List TItem),
      s.nonce = (TItem.mk 0 "S" "S" (some "file:///S.java")
        (some ⟨⟨1, 0⟩, ⟨9, 0⟩⟩) [.mk 1 "t" "t" none (some ⟨⟨2, 0⟩, ⟨3, 0⟩⟩) []]).nonce ∧
      s.id = "S" ∧ s.range = some ⟨⟨1, 0⟩, ⟨9, 0⟩⟩) := by
  have h := c8_ranges_frozen_during_run
    ⟨[.mk 0 "S" "S" (some "file:///S.java")
        (some ⟨⟨1, 0⟩, ⟨9, 0⟩⟩) [.mk 1 "t" "t" none (some ⟨⟨2, 0⟩, ⟨3, 0⟩⟩) []]], 2⟩
    ⟨"S", some "file:///S.java", some ⟨5, 1, 8, 1⟩, .completed,
      some [⟨"t", "t", none, some ⟨6, 1, 7, 1⟩, .passed, none⟩]⟩
    (.mk 0 "S" "S" (some "file:///S.java")
      (some ⟨⟨1, 0⟩, ⟨9, 0⟩⟩) [.mk 1 "t" "t" none (some ⟨⟨2, 0⟩, ⟨3, 0⟩⟩) []])
    (List.mem_singleton_self _)
    (by decide)
  exact h.1

/-! ## Identity-stability lemmas (claim C5) -/

theorem step_cs_fields (texec : Bool) (acc : UTAcc) (t : TestCase) :
    (updateTestsStep texec acc t).cs.nonce = acc.cs.nonce ∧
    (updateTestsStep texec acc t).cs.id = acc.cs.id := by
  cases hg : childGet acc.cs.children t.id with
  | some ct1 =>
      rw [updateTestsStep_found texec acc t ct1 hg]
      dsimp only
      split_ifs <;> simp [withChildren_nonce, withChildren_id]
  | none =>
      rw [updateTestsStep_none texec acc t hg]
      cases texec with
      | true =>
          rw [if_pos rfl]
          cases hps : acc.cs.children.filter (fun it => jsStartsWith t.id it.id) with
          | nil => exact ⟨rfl, rfl⟩
          | cons p rest =>
              cases rest with
              | nil => exact ⟨rfl, rfl⟩
              | cons q r2 => exact ⟨rfl, rfl⟩
      | false =>
          rw [if_neg (by simp)]
          dsimp only
          exact ⟨withChildren_nonce _ _, withChildren_id _ _⟩

theorem fold_cs_fields (texec : Bool) : ∀ (ts : List TestCase) (acc : UTAcc),
    (ts.foldl (updateTestsStep texec) acc).cs.nonce = acc.cs.nonce ∧
    (ts.foldl (updateTestsStep texec) acc).cs.id = acc.cs.id := by
  intro ts
  induction ts with
  | nil => intro acc; exact ⟨rfl, rfl⟩
  | cons t ts2 ih =>
      intro acc
      rw [List.foldl_cons]
      obtain ⟨h1, h2⟩ := ih (updateTestsStep texec acc t)
      obtain ⟨h3, h4⟩ := step_cs_fields texec acc t
      exact ⟨h1.trans h3, h2.trans h4⟩

/-- Unfolding of `updateTests` outside a run when the suite is found and
not recreated. -/
theorem updateTests_keep_static (c : Ctrl) (snap : TestSuiteSnap) (s : TItem)
    (hs : childGet c.items snap.name = some s)
    (huri : snap.file = none ∨ s.uri = snap.file) :
    updateTests c snap false =
      (let cs1 := if (asRange snap.range).isSome = true
                  then s.withRange (asRange snap.range) else s
       let acc := (snap.tests.getD []).foldl (updateTestsStep false)
         ⟨cs1, c.nextNonce, [], []⟩
       { items := c.items.map (fun x =>
           if x.nonce = (acc.cs.withChildren acc.childrenAcc).nonce
           then acc.cs.withChildren acc.childrenAcc else x),
         nextNonce := acc.fresh }) := by
  have hcond : ¬(snap.file.isSome = true ∧ ¬(s.uri = snap.file)) := by
    rcases huri with h | h
    · intro hcon; rw [h] at hcon; exact absurd hcon.1 (by simp)
    · intro hcon; exact hcon.2 h
  simp only [updateTests, hs]
  rw [if_neg hcond]
  simp only [Bool.false_eq_true, not_false_eq_true, true_and, if_false]

/-- Suite identity (part of C5): a call whose snapshot file is absent or
equal to the stored suite uri mutates the existing suite item in place —
the resulting suite entry carries the same nonce and id. -/
theorem updateTests_suite_identity (c : Ctrl) (snap : TestSuiteSnap) (s : TItem)
    (hs : childGet c.items snap.name = some s)
    (huri : snap.file = none ∨ s.uri = snap.file) (texec : Bool) :
    ∃ s2 ∈ (updateTests c snap texec).items, s2.nonce = s.nonce ∧ s2.id = s.id := by
  have hsmem : s ∈ c.items := childGet_mem _ _ _ hs
  cases texec with
  | true =>
      rw [updateTests_keep_texec c snap s hs huri]
      dsimp only
      obtain ⟨hr1, hr2, _, _⟩ :=
        texec_whole s c.nextNonce c.nextNonce (snap.tests.getD []) (Nat.le_refl _)
      refine ⟨_, List.mem_map.2 ⟨s, hsmem, ?_⟩, hr1, hr2⟩
      rw [hr1, if_pos rfl]
  | false =>
      rw [updateTests_keep_static c snap s hs huri]
      dsimp only
      have hcs1 : (if (asRange snap.range).isSome = true
          then s.withRange (asRange snap.range) else s).nonce = s.nonce ∧
          (if (asRange snap.range).isSome = true
          then s.withRange (asRange snap.range) else s).id = s.id := by
        by_cases hr : (asRange snap.range).isSome = true
        · rw [if_pos hr]
          exact ⟨withRange_nonce _ _, withRange_id _ _⟩
        · rw [if_neg hr]
          exact ⟨rfl, rfl⟩
      obtain ⟨hf1, hf2⟩ := fold_cs_fields false (snap.tests.getD [])
        ⟨if (asRange snap.range).isSome = true
         then s.withRange (asRange snap.range) else s, c.nextNonce, [], []⟩
      have hn : ((snap.tests.getD []).foldl (updateTestsStep false)
          ⟨if (asRange snap.range).isSome = true
           then s.withRange (asRange snap.range) else s,
           c.nextNonce, [], []⟩).cs.nonce = s.nonce := by
        rw [hf1]
        exact hcs1.1
      have hi : ((snap.tests.getD []).foldl (updateTestsStep false)
          ⟨if (asRange snap.range).isSome = true
           then s.withRange (asRange snap.range) else s,
           c.nextNonce, [], []⟩).cs.id = s.id := by
        rw [hf2]
        exact hcs1.2
      refine ⟨((snap.tests.getD []).foldl (updateTestsStep false)
          ⟨if (asRange snap.range).isSome = true
           then s.withRange (asRange snap.range) else s,
           c.nextNonce, [], []⟩).cs.withChildren
          ((snap.tests.getD []).foldl (updateTestsStep false)
          ⟨if (asRange snap.range).isSome = true
           then s.withRange (asRange snap.range) else s,
           c.nextNonce, [], []⟩).childrenAcc,
        List.mem_map.2 ⟨s, hsmem, ?_⟩, ?_, ?_⟩
      · rw [withChildren_nonce, hn, if_pos rfl]
      · rw [withChildren_nonce]
        exact hn
      · rw [withChildren_id]
        exact hi

theorem step_childrenAcc_mono (texec : Bool) (acc : UTAcc) (t2 : TestCase) :
    ∀ x ∈ acc.childrenAcc, x ∈ (updateTestsStep texec acc t2).childrenAcc := by
  intro x hx
  cases hg : childGet acc.cs.children t2.id with
  | some ct1 =>
      rw [updateTestsStep_found texec acc t2 ct1 hg]
      dsimp only
      exact List.mem_append_left _ hx
  | none =>
      rw [updateTestsStep_none texec acc t2 hg]
      cases texec with
      | false =>
          rw [if_neg (by simp)]
          dsimp only
          exact List.mem_append_left _ hx
      | true =>
          rw [if_pos rfl]
          cases hps : acc.cs.children.filter (fun it => jsStartsWith t2.id it.id) with
          | nil => exact hx
          | cons p rest =>
            cases rest with
            | cons q r2 => exact hx
            | nil =>
                dsimp only
                by_cases hnew : (acc.parentTests.find?
                    (fun e => e.1.nonce = p.nonce)).isNone = true
                · rw [if_pos hnew]
                  exact List.mem_append_left _ hx
                · rw [if_neg hnew]
                  exact hx

theorem foldAcc_mono (texec : Bool) : ∀ (l : List TestCase) (acc : UTAcc),
    ∀ x ∈ acc.childrenAcc, x ∈ (l.foldl (updateTestsStep texec) acc).childrenAcc := by
  intro l
  induction l with
  | nil => intro acc x hx; exact hx
  | cons t2 l2 ih =>
      intro acc x hx
      rw [List.foldl_cons]
      exact ih _ x (step_childrenAcc_mono texec acc t2 x hx)

/-- A non-during-run loop step on a test with a different id does not change
what a lookup of `tid` among the suite children returns. -/
theorem staticStep_get (acc : UTAcc) (t2 : TestCase) (tid : String)
    (hne : t2.id ≠ tid) :
    childGet (updateTestsStep false acc t2).cs.children tid =
      childGet acc.cs.children tid := by
  cases hg : childGet acc.cs.children t2.id with
  | some ct1 =>
      have hct1id : ct1.id = t2.id := childGet_id _ _ _ hg
      rw [updateTestsStep_found false acc t2 ct1 hg]
      dsimp only
      by_cases hrec : ct1.uri ≠ t2.file
      · by_cases hdr : ¬(false = true) ∧ (asRange t2.range).isSome = true
        · simp only [if_pos hrec, if_pos hdr]
          simp only [withChildren_children]
          rw [childAdd_get_ne _ _ _
              (show ((createTestItem acc.fresh t2.id t2.name t2.file).withRange
                (asRange t2.range)).id ≠ tid by rw [withRange_id]; exact hne),
            childAdd_get_ne _ _ _
              (show (createTestItem acc.fresh t2.id t2.name t2.file).id ≠ tid from hne)]
        · simp only [if_pos hrec, if_neg hdr]
          simp only [withChildren_children]
          rw [childAdd_get_ne _ _ _
            (show (createTestItem acc.fresh t2.id t2.name t2.file).id ≠ tid from hne)]
      · by_cases hdr : ¬(false = true) ∧ (asRange t2.range).isSome = true
        · simp only [if_neg hrec, if_pos hdr]
          simp only [withChildren_children]
          rw [childAdd_get_ne _ _ _
            (show (ct1.withRange (asRange t2.range)).id ≠ tid by
              rw [withRange_id, hct1id]; exact hne)]
        · simp only [if_neg hrec, if_neg hdr]
  | none =>
      rw [updateTestsStep_none false acc t2 hg]
      rw [if_neg (by simp)]
      dsimp only
      simp only [withChildren_children]
      rw [childAdd_get_ne _ _ _
        (show ((createTestItem acc.fresh t2.id t2.name t2.file).withRange
          (asRange t2.range)).id ≠ tid by rw [withRange_id]; exact hne)]

/-- A non-during-run loop step on a found test with unchanged uri pushes an
item with the same id and the same nonce on the `children` array. -/
theorem staticStep_self (acc : UTAcc) (t : TestCase) (ct2 : TItem)
    (hg : childGet acc.cs.children t.id = some ct2) (hcu : ct2.uri = t.file) :
    ∃ ct3, (updateTestsStep false acc t).childrenAcc = acc.childrenAcc ++ [ct3] ∧
      ct3.id = ct2.id ∧ ct3.nonce = ct2.nonce := by
  rw [updateTestsStep_found false acc t ct2 hg]
  dsimp only
  have hrec : ¬(ct2.uri ≠ t.file) := fun hc => hc hcu
  by_cases hdr : ¬(false = true) ∧ (asRange t.range).isSome = true
  · refine ⟨ct2.withRange (asRange t.range), ?_, withRange_id _ _, withRange_nonce _ _⟩
    simp only [if_neg hrec, if_pos hdr]
  · refine ⟨ct2, ?_, rfl, rfl⟩
    simp only [if_neg hrec, if_neg hdr]

/-- The lookup result for `tid` survives a whole run of non-during-run loop
steps on tests with other ids. -/
theorem staticPre (tid : String) (nc : Nat) (u : Option String) :
    ∀ (l : List TestCase) (acc : UTAcc),
      (∀ t2 ∈ l, t2.id ≠ tid) →
      (∃ ct2, childGet acc.cs.children tid = some ct2 ∧ ct2.nonce = nc ∧ ct2.uri = u) →
      ∃ ct2, childGet (l.foldl (updateTestsStep false) acc).cs.children tid = some ct2 ∧
        ct2.nonce = nc ∧ ct2.uri = u := by
  intro l
  induction l with
  | nil => intro acc _ h; exact h
  | cons t2 l2 ih =>
      intro acc hne h
      rw [List.foldl_cons]
      refine ih _ (fun x hx => hne x (List.mem_cons_of_mem t2 hx)) ?_
      rw [staticStep_get acc t2 tid (hne t2 (List.mem_cons_self t2 l2))]
      exact h

/-- Running the whole non-during-run loop over tests with distinct ids, when
test `t` is found among the suite children with unchanged uri, pushes an item
with `t`'s id and the found item's nonce on the rebuilt `children` array. -/
theorem staticFold_self (ts : List TestCase) (t : TestCase) (nc : Nat) (acc : UTAcc)
    (hnodup : (ts.map TestCase.id).Nodup) (ht : t ∈ ts)
    (hget : ∃ ct2, childGet acc.cs.children t.id = some ct2 ∧
      ct2.nonce = nc ∧ ct2.uri = t.file) :
    ∃ ct3 ∈ (ts.foldl (updateTestsStep false) acc).childrenAcc,
      ct3.id = t.id ∧ ct3.nonce = nc := by
  obtain ⟨l1, l2, rfl⟩ := List.append_of_mem ht
  rw [List.map_append, List.map_cons] at hnodup
  obtain ⟨hnd1, hnd2, hdisj⟩ := List.nodup_append.1 hnodup
  have hnid1 : ∀ t2 ∈ l1, t2.id ≠ t.id := by
    intro t2 ht2 he
    exact hdisj (List.mem_map_of_mem _ ht2)
      (by rw [he]; exact List.mem_cons_self _ _)
  rw [List.foldl_append, List.foldl_cons]
  obtain ⟨ct2, hget2, hn2, hu2⟩ := staticPre t.id nc t.file l1 acc hnid1 hget
  obtain ⟨ct3, hca, hid3, hn3⟩ := staticStep_self _ t ct2 hget2 hu2
  refine ⟨ct3, foldAcc_mono false l2 _ ct3 ?_, ?_, ?_⟩
  · rw [hca]
    exact List.mem_append_right _ (by simp)
  · rw [hid3]
    exact childGet_id _ _ _ hget2
  · rw [hn3]
    exact hn2

/-- Outside a run, a test already present among the suite children with
unchanged uri keeps its item's identity (nonce) in the rebuilt suite. -/
theorem updateTests_static_test_identity (c : Ctrl) (snap : TestSuiteSnap) (s : TItem)
    (ts : List TestCase) (t : TestCase) (ct : TItem)
    (hs : childGet c.items snap.name = some s)
    (huri : snap.file = none ∨ s.uri = snap.file)
    (hts : snap.tests = some ts)
    (hnodup : (ts.map TestCase.id).Nodup)
    (ht : t ∈ ts)
    (hct : childGet s.children t.id = some ct)
    (hcu : ct.uri = t.file) :
    ∃ s2 ∈ (updateTests c snap false).items, s2.nonce = s.nonce ∧
      ∃ ct2 ∈ s2.children, ct2.id = t.id ∧ ct2.nonce = ct.nonce := by
  have hsmem : s ∈ c.items := childGet_mem _ _ _ hs
  rw [updateTests_keep_static c snap s hs huri, hts]
  simp only [Option.getD_some]
  have hcs1n : (if (asRange snap.range).isSome = true
      then s.withRange (asRange snap.range) else s).nonce = s.nonce := by
    by_cases hr : (asRange snap.range).isSome = true
    · rw [if_pos hr, withRange_nonce]
    · rw [if_neg hr]
  have hcs1get : childGet (if (asRange snap.range).isSome = true
      then s.withRange (asRange snap.range) else s).children t.id = some ct := by
    by_cases hr : (asRange snap.range).isSome = true
    · rw [if_pos hr, withRange_children]
      exact hct
    · rw [if_neg hr]
      exact hct
  obtain ⟨ct3, hmem3, hid3, hn3⟩ := staticFold_self ts t ct.nonce
    ⟨if (asRange snap.range).isSome = true
     then s.withRange (asRange snap.range) else s,
     c.nextNonce, [], []⟩ hnodup ht ⟨ct, hcs1get, rfl, hcu⟩
  have hfn2 : (ts.foldl (updateTestsStep false)
      (⟨if (asRange snap.range).isSome = true
        then s.withRange (asRange snap.range) else s,
        c.nextNonce, [], []⟩ : UTAcc)).cs.nonce = s.nonce :=
    (fold_cs_fields false ts _).1.trans hcs1n
  refine ⟨(ts.foldl (updateTestsStep false)
      ⟨if (asRange snap.range).isSome = true
       then s.withRange (asRange snap.range) else s,
       c.nextNonce, [], []⟩).cs.withChildren
      (ts.foldl (updateTestsStep false)
      ⟨if (asRange snap.range).isSome = true
       then s.withRange (asRange snap.range) else s,
       c.nextNonce, [], []⟩).childrenAcc,
    List.mem_map.2 ⟨s, hsmem, ?_⟩, ?_, ?_⟩
  · rw [withChildren_nonce, hfn2, if_pos rfl]
  · rw [withChildren_nonce]
    exact hfn2
  · rw [withChildren_children]
    exact ⟨ct3, hmem3, hid3, hn3⟩

/-- During-run loop over unknown test ids: the suite object is threaded
unchanged and every `parentTests` key satisfies any property enjoyed by
unique prefix parents of the processed tests. -/
theorem ptKeys_loop (s : TItem) (P : TItem → Prop) :
    ∀ (ts : List TestCase) (f : Nat) (ca : List TItem)
      (pt : List (TItem × List TItem)),
      (∀ t ∈ ts, childGet s.children t.id = none) →
      (∀ t ∈ ts, ∀ p, parentsOf s t.id = [p] → P p) →
      (∀ e ∈ pt, P e.1) →
      ∃ f2 ca2 pt2,
        ts.foldl (updateTestsStep true) ⟨s, f, ca, pt⟩ = ⟨s, f2, ca2, pt2⟩ ∧
        ∀ e2 ∈ pt2, P e2.1 := by
  intro ts
  induction ts with
  | nil => intro f ca pt _ _ hpt; exact ⟨f, ca, pt, rfl, hpt⟩
  | cons t ts2 ih =>
      intro f ca pt hfresh hP hpt
      have hstep : ∃ f2 ca2 pt2,
          updateTestsStep true ⟨s, f, ca, pt⟩ t = ⟨s, f2, ca2, pt2⟩ ∧
          ∀ e2 ∈ pt2, P e2.1 := by
        rw [updateTestsStep_fresh s f ca pt t (hfresh t (List.mem_cons_self t ts2))]
        cases hp : parentsOf s t.id with
        | nil => exact ⟨f, ca, pt, rfl, hpt⟩
        | cons p rest =>
          cases rest with
          | cons q r2 => exact ⟨f, ca, pt, rfl, hpt⟩
          | nil =>
              dsimp only
              refine ⟨f + 1, _, _, rfl, ?_⟩
              intro e2 he2
              obtain ⟨e3, he3, heq⟩ := List.mem_map.1 he2
              rw [← heq, ptsAppend_fst]
              by_cases hnew : (pt.find? (fun e => e.1.nonce = p.nonce)).isNone = true
              · rw [if_pos hnew] at he3
                rcases List.mem_append.1 he3 with h1 | h1
                · exact hpt e3 h1
                · rw [List.mem_singleton.1 h1]
                  exact hP t (List.mem_cons_self t ts2) p hp
              · rw [if_neg hnew] at he3
                exact hpt e3 he3
      obtain ⟨f2, ca2, pt2, heq, hpt2⟩ := hstep
      rw [List.foldl_cons, heq]
      exact ih f2 ca2 pt2 (fun x hx => hfresh x (List.mem_cons_of_mem t hx))
        (fun x hx => hP x (List.mem_cons_of_mem t hx)) hpt2

/-- During a run, an existing suite child that is not the unique prefix
parent of any snapshot test survives the update as the very same object. -/
theorem updateTests_dynamic_nonparent_identity (c : Ctrl) (snap : TestSuiteSnap)
    (s : TItem) (ts : List TestCase) (ct : TItem)
    (hs : childGet c.items snap.name = some s)
    (huri : snap.file = none ∨ s.uri = snap.file)
    (hts : snap.tests = some ts)
    (hfresh : ∀ t ∈ ts, childGet s.children t.id = none)
    (hids : (s.children.map TItem.id).Nodup)
    (hct : ct ∈ s.children)
    (hnotpar : ∀ t ∈ ts, parentsOf s t.id ≠ [ct]) :
    ∃ s2 ∈ (updateTests c snap true).items, s2.nonce = s.nonce ∧ ct ∈ s2.children := by
  rw [updateTests_keep_texec c snap s hs huri, hts]
  obtain ⟨f2, ca2, pt2, hfold, hkeys⟩ :=
    ptKeys_loop s (fun p => p ∈ s.children ∧ p ≠ ct) ts c.nextNonce [] [] hfresh
      (fun t ht p hp =>
        ⟨by
           have hpp : p ∈ parentsOf s t.id := by
             rw [hp]
             exact List.mem_singleton_self p
           exact List.mem_of_mem_filter hpp,
         fun hcon => hnotpar t ht (by rw [hp, hcon])⟩)
      (fun e he => absurd he (List.not_mem_nil e))
  show ∃ s2 ∈ (Ctrl.mk _ _).items, _
  dsimp only [Option.getD]
  rw [hfold]
  dsimp only
  obtain ⟨cs2, f3, hpr⟩ := ptFold_shape pt2 (s, f2)
  rw [hpr]
  dsimp only
  have hctmem : ct ∈ cs2 := by
    have h1 : ct ∈ (pt2.foldl ptFoldStep (s, f2)).1.children := by
      refine ptFold_preserve pt2 (s, f2) ct hct ?_
      intro e he hcon
      obtain ⟨hmem, hne⟩ := hkeys e he
      exact hne (List.inj_on_of_nodup_map hids hmem hct hcon)
    rw [hpr, withChildren_children] at h1
    exact h1
  refine ⟨s.withChildren cs2, List.mem_map.2 ⟨s, childGet_mem _ _ _ hs, ?_⟩, ?_, ?_⟩
  · rw [withChildren_nonce, if_pos rfl]
  · exact withChildren_nonce _ _
  · rw [withChildren_children]
    exact hctmem

/-! ## Claim C1: dynamic parent inference -/

/-- Counterexample to C1 as stated: suite `S` has one existing test
`caseA`; a during-run snapshot reports `caseX1`, whose id has no existing
prefix match.  C1 claims the test is then attached directly under the
suite; in fact `updateTests` has no branch for this case and drops the
test entirely — the controller contents are completely unchanged, so no
item with id `caseX1` exists anywhere. -/
theorem c1_counterexample :
    (updateTests
      ⟨[.mk 0 "S" "S" (some "file:///S.java") none [.mk 1 "caseA" "caseA" none none []]], 2⟩
      ⟨"S", some "file:///S.java", none, .completed,
        some [⟨"caseX1", "caseX1", none, none, .failed, some ["trace"]⟩]⟩ true).items =
    [.mk 0 "S" "S" (some "file:///S.java") none [.mk 1 "caseA" "caseA" none none []]] := rfl

/-- Claim C1, amended: for a during-run snapshot of unknown test ids (with
distinct ids, over a suite whose children have distinct ids and nonces and
whose file identity is unchanged): if exactly one existing child id is a
string prefix of the new id, a new item for the new id is nested as a child
of an item carrying the matched child's id (the matched parent is
re-created); if zero or more than one child id matches, the new test is not
attached at all — no item with its id is introduced anywhere in the suite
subtree (its failures surface only through suite-level messages). -/
theorem c1_amended_dynamic_parenting (c : Ctrl) (snap : TestSuiteSnap) (s : TItem)
    (ts : List TestCase)
    (hs : childGet c.items snap.name = some s)
    (huri : snap.file = none ∨ s.uri = snap.file)
    (hts : snap.tests = some ts)
    (hfresh : ∀ t ∈ ts, childGet s.children t.id = none)
    (hnodup : (ts.map TestCase.id).Nodup)
    (hids : (s.children.map TItem.id).Nodup)
    (hnn : (s.children.map TItem.nonce).Nodup) :
    ∃ s2 ∈ (updateTests c snap true).items, s2.nonce = s.nonce ∧
      (∀ t ∈ ts, ∀ p, parentsOf s t.id = [p] →
        ∃ pc ∈ s2.children, pc.id = p.id ∧ ∃ d ∈ pc.children, d.id = t.id) ∧
      (∀ t ∈ ts, (∀ p, parentsOf s t.id ≠ [p]) →
        ∀ x ∈ allItems s2, x.id = t.id → ∃ y ∈ allItems s, y.id = t.id) := by
  obtain ⟨s2, hmem, hnonce, hid, h1, h2⟩ :=
    updateTests_dynamic_spec c snap s ts hs huri hts hfresh hnodup hids hnn
  refine ⟨s2, hmem, hnonce, ?_, h2⟩
  intro t ht p hp
  obtain ⟨pc, hpc, hpcid, d, hd, hdid, _⟩ := h1 t ht p hp
  exact ⟨pc, hpc, hpcid, d, hd, hdid⟩

/-- Witness for the amended C1 at a concrete input: `caseA[1]` is nested
under an item with id `caseA`, and `caseX1` (no prefix match) is attached
nowhere. -/
theorem c1_witness :
    ∃ s2 ∈ (updateTests
      ⟨[.mk 0 "S" "S" (some "file:///S.java") none [.mk 1 "caseA" "caseA" none none []]], 2⟩
      ⟨"S", some "file:///S.java", none, .completed,
        some [⟨"caseA[1]", "caseA[1]", none, none, .passed, none⟩,
              ⟨"caseX1", "caseX1", none, none, .failed, some ["trace"]⟩]⟩ true).items,
      s2.nonce = 0 ∧
      (∀ t ∈ [(⟨"caseA[1]", "caseA[1]", none, none, .passed, none⟩ : TestCase),
              ⟨"caseX1", "caseX1", none, none, .failed, some ["trace"]⟩],
        ∀ p, parentsOf (.mk 0 "S" "S" (some "file:///S.java") none
            [.mk 1 "caseA" "caseA" none none []]) t.id = [p] →
        ∃ pc ∈ s2.children, pc.id = p.id ∧ ∃ d ∈ pc.children, d.id = t.id) ∧
      (∀ t ∈ [(⟨"caseA[1]", "caseA[1]", none, none, .passed, none⟩ : TestCase),
              ⟨"caseX1", "caseX1", none, none, .failed, some ["trace"]⟩],
        (∀ p, parentsOf (.mk 0 "S" "S" (some "file:///S.java") none
            [.mk 1 "caseA" "caseA" none none []]) t.id ≠ [p]) →
        ∀ x ∈ allItems s2, x.id = t.id →
          ∃ y ∈ allItems (.mk 0 "S" "S" (some "file:///S.java") none
            [.mk 1 "caseA" "caseA" none none []]), y.id = t.id) :=
  c1_amended_dynamic_parenting
    ⟨[.mk 0 "S" "S" (some "file:///S.java") none [.mk 1 "caseA" "caseA" none none []]], 2⟩
    ⟨"S", some "file:///S.java", none, .completed,
      some [⟨"caseA[1]", "caseA[1]", none, none, .passed, none⟩,
            ⟨"caseX1", "caseX1", none, none, .failed, some ["trace"]⟩]⟩
    (.mk 0 "S" "S" (some "file:///S.java") none [.mk 1 "caseA" "caseA" none none []])
    [⟨"caseA[1]", "caseA[1]", none, none, .passed, none⟩,
     ⟨"caseX1", "caseX1", none, none, .failed, some ["trace"]⟩]
    rfl (Or.inr rfl) rfl
    (by intro t ht
        rcases List.mem_cons.1 ht with rfl | ht2
        · rfl
        · rw [List.mem_singleton.1 ht2]; rfl)
    (by decide) (by decide) (by decide)

/-! ## Claim C10: dynamic test labels -/

/-- Claim C10: a dynamic during-run test nested under an inferred parent
gets its display label from its reported name: when the name starts with
the parent's label the label is the remainder after removing that prefix,
trimmed of surrounding whitespace; otherwise it is the full reported name. -/
theorem c10_dynamic_label (c : Ctrl) (snap : TestSuiteSnap) (s : TItem)
    (ts : List TestCase)
    (hs : childGet c.items snap.name = some s)
    (huri : snap.file = none ∨ s.uri = snap.file)
    (hts : snap.tests = some ts)
    (hfresh : ∀ t ∈ ts, childGet s.children t.id = none)
    (hnodup : (ts.map TestCase.id).Nodup)
    (hids : (s.children.map TItem.id).Nodup)
    (hnn : (s.children.map TItem.nonce).Nodup) :
    ∃ s2 ∈ (updateTests c snap true).items, s2.nonce = s.nonce ∧
      ∀ t ∈ ts, ∀ p, parentsOf s t.id = [p] →
        ∃ pc ∈ s2.children, pc.id = p.id ∧
          ∃ d ∈ pc.children, d.id = t.id ∧
            d.label = (if jsStartsWith t.name p.label
                       then jsTrim (String.mk (t.name.data.drop p.label.data.length))
                       else t.name) := by
  obtain ⟨s2, hmem, hnonce, hid, h1, h2⟩ :=
    updateTests_dynamic_spec c snap s ts hs huri hts hfresh hnodup hids hnn
  exact ⟨s2, hmem, hnonce, h1⟩

/-- Witness for C10: the dynamic case `caseA 1x` nested under parent label
`caseA` gets label `1x` (prefix removed, remainder trimmed). -/
theorem c10_witness :
    ∃ s2 ∈ (updateTests
      ⟨[.mk 0 "S" "S" (some "file:///S.java") none [.mk 1 "caseA" "caseA" none none []]], 2⟩
      ⟨"S", some "file:///S.java", none, .completed,
        some [⟨"caseA[1]", "caseA 1x", none, none, .passed, none⟩]⟩ true).items,
      s2.nonce = 0 ∧
      ∀ t ∈ [(⟨"caseA[1]", "caseA 1x", none, none, .passed, none⟩ : TestCase)],
        ∀ p, parentsOf (.mk 0 "S" "S" (some "file:///S.java") none
            [.mk 1 "caseA" "caseA" none none []]) t.id = [p] →
        ∃ pc ∈ s2.children, pc.id = p.id ∧
          ∃ d ∈ pc.children, d.id = t.id ∧
            d.label = (if jsStartsWith t.name p.label
                       then jsTrim (String.mk (t.name.data.drop p.label.data.length))
                       else t.name) :=
  c10_dynamic_label
    ⟨[.mk 0 "S" "S" (some "file:///S.java") none [.mk 1 "caseA" "caseA" none none []]], 2⟩
    ⟨"S", some "file:///S.java", none, .completed,
      some [⟨"caseA[1]", "caseA 1x", none, none, .passed, none⟩]⟩
    (.mk 0 "S" "S" (some "file:///S.java") none [.mk 1 "caseA" "caseA" none none []])
    [⟨"caseA[1]", "caseA 1x", none, none, .passed, none⟩]
    rfl (Or.inr rfl) rfl
    (by intro t ht; rw [List.mem_singleton.1 ht]; rfl)
    (by decide) (by decide) (by decide)

/-! ## Claim C5: identity stability of `updateTests` -/

/-- Counterexample to claim C5: during a run, the existing child `caseA`
(nonce 1) has unchanged source-file identity (its uri is `none` and no
snapshot entry carries a different file for its id), yet after `updateTests`
the suite's child with id `caseA` is a fresh object (nonce 3): the unique
prefix parent of the unknown test `caseA[1]` is replaced, not mutated. -/
theorem c5_counterexample :
    (updateTests
      ⟨[.mk 0 "S" "S" (some "file:///S.java") none
          [.mk 1 "caseA" "caseA" none none []]], 2⟩
      ⟨"S", some "file:///S.java", none, .completed,
        some [⟨"caseA[1]", "caseA[1]", none, none, .passed, none⟩]⟩ true).items =
    [.mk 0 "S" "S" (some "file:///S.java") none
      [.mk 3 "caseA" "caseA" none none [.mk 2 "caseA[1]" "[1]" none none []]]] := rfl

/-- Claim C5, amended: for a snapshot whose suite is found with unchanged
source-file identity (distinct test ids, suite children with distinct ids),
`updateTests` mutates rather than replaces the existing objects — the suite
item keeps its identity in both modes; outside a run a test whose id is
found with matching stored uri keeps its item's identity; during a run an
existing child of a snapshot of unknown test ids keeps its identity
provided it is not picked as the unique prefix parent of some new test (a
picked parent is replaced by a fresh object even with unchanged uri). -/
theorem c5_amended_identity (c : Ctrl) (snap : TestSuiteSnap) (s : TItem)
    (ts : List TestCase)
    (hs : childGet c.items snap.name = some s)
    (huri : snap.file = none ∨ s.uri = snap.file)
    (hts : snap.tests = some ts)
    (hnodup : (ts.map TestCase.id).Nodup)
    (hids : (s.children.map TItem.id).Nodup) :
    (∀ texec, ∃ s2 ∈ (updateTests c snap texec).items,
       s2.nonce = s.nonce ∧ s2.id = s.id) ∧
    (∀ t ∈ ts, ∀ ct, childGet s.children t.id = some ct → ct.uri = t.file →
      ∃ s2 ∈ (updateTests c snap false).items, s2.nonce = s.nonce ∧
        ∃ ct2 ∈ s2.children, ct2.id = t.id ∧ ct2.nonce = ct.nonce) ∧
    ((∀ t ∈ ts, childGet s.children t.id = none) →
      ∀ ct ∈ s.children, (∀ t ∈ ts, parentsOf s t.id ≠ [ct]) →
      ∃ s2 ∈ (updateTests c snap true).items, s2.nonce = s.nonce ∧
        ct ∈ s2.children) :=
  ⟨fun texec => updateTests_suite_identity c snap s hs huri texec,
   fun t ht ct hct hcu =>
     updateTests_static_test_identity c snap s ts t ct hs huri hts hnodup ht hct hcu,
   fun hfresh ct hct hnotpar =>
     updateTests_dynamic_nonparent_identity c snap s ts ct hs huri hts
       hfresh hids hct hnotpar⟩

/-- Witness for C5: a suite with one test child whose uri matches the
reported file; outside a run the child keeps nonce 1. -/
theorem c5_witness :
    (∀ texec, ∃ s2 ∈ (updateTests
        ⟨[.mk 0 "S" "S" (some "file:///S.java") none
            [.mk 1 "caseA" "caseA" (some "file:///S.java") none []]], 2⟩
        ⟨"S", some "file:///S.java", none, .completed,
          some [⟨"caseA", "caseA", some "file:///S.java", none, .passed, none⟩]⟩
        texec).items,
      s2.nonce = 0 ∧ s2.id = "S") ∧
    (∀ t ∈ [(⟨"caseA", "caseA", some "file:///S.java", none, .passed, none⟩ : TestCase)],
      ∀ ct, childGet [TItem.mk 1 "caseA" "caseA" (some "file:///S.java") none []]
          t.id = some ct →
      ct.uri = t.file →
      ∃ s2 ∈ (updateTests
        ⟨[.mk 0 "S" "S" (some "file:///S.java") none
            [.mk 1 "caseA" "caseA" (some "file:///S.java") none []]], 2⟩
        ⟨"S", some "file:///S.java", none, .completed,
          some [⟨"caseA", "caseA", some "file:///S.java", none, .passed, none⟩]⟩
        false).items,
        s2.nonce = 0 ∧ ∃ ct2 ∈ s2.children, ct2.id = t.id ∧ ct2.nonce = ct.nonce) ∧
    ((∀ t ∈ [(⟨"caseA", "caseA", some "file:///S.java", none, .passed, none⟩ : TestCase)],
        childGet [TItem.mk 1 "caseA" "caseA" (some "file:///S.java") none []]
          t.id = none) →
      ∀ ct ∈ [TItem.mk 1 "caseA" "caseA" (some "file:///S.java") none []],
        (∀ t ∈ [(⟨"caseA", "caseA", some "file:///S.java", none,
            .passed, none⟩ : TestCase)],
          parentsOf (.mk 0 "S" "S" (some "file:///S.java") none
            [.mk 1 "caseA" "caseA" (some "file:///S.java") none []]) t.id ≠ [ct]) →
        ∃ s2 ∈ (updateTests
          ⟨[.mk 0 "S" "S" (some "file:///S.java") none
              [.mk 1 "caseA" "caseA" (some "file:///S.java") none []]], 2⟩
          ⟨"S", some "file:///S.java", none, .completed,
            some [⟨"caseA", "caseA", some "file:///S.java", none, .passed, none⟩]⟩
          true).items,
          s2.nonce = 0 ∧ ct ∈ s2.children) :=
  c5_amended_identity
    ⟨[.mk 0 "S" "S" (some "file:///S.java") none
        [.mk 1 "caseA" "caseA" (some "file:///S.java") none []]], 2⟩
    ⟨"S", some "file:///S.java", none, .completed,
      some [⟨"caseA", "caseA", some "file:///S.java", none, .passed, none⟩]⟩
    (.mk 0 "S" "S" (some "file:///S.java") none
      [.mk 1 "caseA" "caseA" (some "file:///S.java") none []])
    [⟨"caseA", "caseA", some "file:///S.java", none, .passed, none⟩]
    rfl (Or.inr rfl) rfl (by decide) (by decide)

/-! ## Claim C3: suite-level failure rollup in `testProgress` -/

theorem set_npd_true (rs : RunState) (item : TItem) (st : TState)
    (msg : Option (List TMsg)) (h : rs.active = true) :
    set rs item st msg true = applyOne rs item st msg := by
  cases item with
  | mk n i l u r cs =>
      rw [set_mk, if_pos h, if_pos rfl]

/-- Frame lemma for one result-loop iteration of `testProgress` when the
suite object has a declared range: the step never throws, keeps the run
active, only appends to `suiteMessages`, and an unmatched non-passed result
with a stack trace contributes its suite-level message. -/
theorem tpStep_c3 (cur : TItem) (r : SRange) (acc : TPAcc) (t : TestCase)
    (hr : cur.range = some r) (hc : acc.crashed = false)
    (ha : acc.rs.active = true) :
    (tpStep cur acc t).crashed = false ∧
    (tpStep cur acc t).rs.active = true ∧
    (∀ m ∈ acc.msgs, m ∈ (tpStep cur acc t).msgs) ∧
    (∀ frames, resolveTest cur t.id = none → t.state ≠ ResState.passed →
      t.stackTrace = some frames →
      (⟨String.intercalate "\n" frames, some ⟨cur.uri, r.start⟩⟩ : TMsg) ∈
        (tpStep cur acc t).msgs) := by
  unfold tpStep
  rw [if_neg (by rw [hc]; exact Bool.false_ne_true), if_pos ha]
  cases hst : t.stackTrace with
  | none =>
      dsimp only
      rw [if_neg (by simp)]
      cases hres : resolveTest cur t.id with
      | some pr =>
          obtain ⟨ct, pu⟩ := pr
          cases hts2 : t.state.toTState with
          | some st =>
              dsimp only
              refine ⟨hc, ?_, fun m hm => hm, ?_⟩
              · rw [set_active]
                exact ha
              · intro frames h1 h2 h3
                exact Option.noConfusion h3
          | none =>
              exact ⟨hc, ha, fun m hm => hm, fun frames h1 h2 h3 =>
                Option.noConfusion h3⟩
      | none =>
          exact ⟨hc, ha, fun m hm => hm, fun frames h1 h2 h3 =>
            Option.noConfusion h3⟩
  | some frames0 =>
      dsimp only
      cases hres : resolveTest cur t.id with
      | some pr =>
          obtain ⟨ct, pu⟩ := pr
          dsimp only
          cases hu : ct.uri <|> pu with
          | some u =>
              dsimp only
              rw [if_neg (by simp)]
              cases hts2 : t.state.toTState with
              | some st =>
                  dsimp only
                  refine ⟨hc, ?_, fun m hm => hm, ?_⟩
                  · rw [set_active]
                    exact ha
                  · intro frames h1 h2 h3
                    exact Option.noConfusion h1
              | none =>
                  dsimp only
                  by_cases hp : t.state ≠ ResState.passed
                  · rw [if_pos hp]
                    refine ⟨hc, ha, fun m hm => List.mem_append_left _ hm, ?_⟩
                    intro frames h1 h2 h3
                    exact Option.noConfusion h1
                  · rw [if_neg hp]
                    exact ⟨hc, ha, fun m hm => hm, fun frames h1 h2 h3 =>
                      Option.noConfusion h1⟩
          | none =>
              rw [if_neg (by simp)]
              cases hts2 : t.state.toTState with
              | some st =>
                  dsimp only
                  refine ⟨hc, ?_, fun m hm => hm, ?_⟩
                  · rw [set_active]
                    exact ha
                  · intro frames h1 h2 h3
                    exact Option.noConfusion h1
              | none =>
                  dsimp only
                  by_cases hp : t.state ≠ ResState.passed
                  · rw [if_pos hp]
                    refine ⟨hc, ha, fun m hm => List.mem_append_left _ hm, ?_⟩
                    intro frames h1 h2 h3
                    exact Option.noConfusion h1
                  · rw [if_neg hp]
                    exact ⟨hc, ha, fun m hm => hm, fun frames h1 h2 h3 =>
                      Option.noConfusion h1⟩
      | none =>
          dsimp only
          rw [hr]
          dsimp only
          rw [if_neg (by simp)]
          by_cases hp : t.state ≠ ResState.passed
          · rw [if_pos hp]
            refine ⟨hc, ha, fun m hm => List.mem_append_left _ hm, ?_⟩
            intro frames h1 h2 h3
            injection h3 with h4
            rw [← h4]
            exact List.mem_append_right _ (List.mem_singleton.2 rfl)
          · rw [if_neg hp]
            refine ⟨hc, ha, fun m hm => hm, ?_⟩
            intro frames h1 h2 h3
            exact absurd h2 hp

/-- Frame lemma for the whole result loop of `testProgress` when the suite
object has a declared range. -/
theorem tpFold_c3 (cur : TItem) (r : SRange) (hr : cur.range = some r) :
    ∀ (ts : List TestCase) (acc : TPAcc),
      acc.crashed = false → acc.rs.active = true →
      (ts.foldl (tpStep cur) acc).crashed = false ∧
      (ts.foldl (tpStep cur) acc).rs.active = true ∧
      (∀ m ∈ acc.msgs, m ∈ (ts.foldl (tpStep cur) acc).msgs) ∧
      (∀ t ∈ ts, ∀ frames, resolveTest cur t.id = none →
        t.state ≠ ResState.passed → t.stackTrace = some frames →
        (⟨String.intercalate "\n" frames, some ⟨cur.uri, r.start⟩⟩ : TMsg) ∈
          (ts.foldl (tpStep cur) acc).msgs) := by
  intro ts
  induction ts with
  | nil =>
      intro acc hc ha
      exact ⟨hc, ha, fun m hm => hm, fun t ht => absurd ht (List.not_mem_nil t)⟩
  | cons t ts2 ih =>
      intro acc hc ha
      rw [List.foldl_cons]
      obtain ⟨hc1, ha1, hmono1, hq1⟩ := tpStep_c3 cur r acc t hr hc ha
      obtain ⟨hc2, ha2, hmono2, hq2⟩ := ih (tpStep cur acc t) hc1 ha1
      refine ⟨hc2, ha2, fun m hm => hmono2 m (hmono1 m hm), ?_⟩
      intro t2 ht2 frames hres hstt htr
      rcases List.mem_cons.1 ht2 with rfl | h2
      · exact hmono2 _ (hq1 frames hres hstt htr)
      · exact hq2 t2 h2 frames hres hstt htr

/-- Unfolding of `testProgress` for a `completed` snapshot with a test list
when the suite name is found among the controller items. -/
theorem testProgress_completed (c : Ctrl) (rs : RunState) (snap : TestSuiteSnap)
    (ts : List TestCase) (old : TItem)
    (hstate : snap.state = SuiteState.completed)
    (hts : snap.tests = some ts)
    (hold : childGet c.items snap.name = some old) :
    testProgress c rs snap =
      (let c2 := updateTests c snap true
       let cur := (c2.items.find? (fun x => x.nonce = old.nonce)).getD old
       let acc := ts.foldl (tpStep cur) ⟨rs, [], false⟩
       if acc.crashed then (c2, acc.rs, true)
       else if acc.msgs ≠ [] then
         let rs2 := set acc.rs cur .errored (some acc.msgs) true
         let rs3 := setList rs2 cur.children .skipped none false
         (c2, rs3, false)
       else (c2, acc.rs, false)) := by
  unfold testProgress
  rw [hstate, hts, hold]

/-- Counterexample to claim C3: a during-run `completed` snapshot over a
suite item with no declared range, carrying one failed result with a stack
trace that matches no tree item.  The claim prescribes suite-level
accumulation and an `errored` suite; instead the handler dereferences the
undefined suite range (`currentSuite.range!.start`, line 164) and throws,
and nothing at all is reported. -/
theorem c3_counterexample :
    (testProgress ⟨[.mk 0 "S" "S" (some "file:///S.java") none []], 1⟩ ⟨true, [], []⟩
      ⟨"S", some "file:///S.java", none, .completed,
        some [⟨"x", "x", none, none, .failed, some ["boom"]⟩]⟩).2.2 = true ∧
    (testProgress ⟨[.mk 0 "S" "S" (some "file:///S.java") none []], 1⟩ ⟨true, [], []⟩
      ⟨"S", some "file:///S.java", none, .completed,
        some [⟨"x", "x", none, none, .failed, some ["boom"]⟩]⟩).2.1.log = [] :=
  ⟨rfl, rfl⟩

/-- Claim C3, amended: during a running `completed` suite event, provided
the suite item read by the handler has a declared range, the handler does
not throw, and every reported result that cannot be matched to any tree
item, is not `passed` and carries a stack trace has its message accumulated
at suite level; if any test qualifies, the suite is reported `errored`
(without propagation) with a message list containing all the accumulated
messages, and every child of the suite is reported `skipped`. -/
theorem c3_amended_rollup (c : Ctrl) (rs : RunState) (snap : TestSuiteSnap)
    (ts : List TestCase) (old cur : TItem) (r : SRange)
    (ha : rs.active = true)
    (hstate : snap.state = SuiteState.completed)
    (hts : snap.tests = some ts)
    (hold : childGet c.items snap.name = some old)
    (hcur : ((updateTests c snap true).items.find?
      (fun x => x.nonce = old.nonce)).getD old = cur)
    (hr : cur.range = some r) :
    (testProgress c rs snap).2.2 = false ∧
    ∀ t ∈ ts, ∀ frames, resolveTest cur t.id = none →
      t.state ≠ ResState.passed → t.stackTrace = some frames →
      ∃ ms, (⟨String.intercalate "\n" frames, some ⟨cur.uri, r.start⟩⟩ : TMsg) ∈ ms ∧
        (⟨cur.nonce, cur.id, TState.errored, some ms⟩ : Report) ∈
          (testProgress c rs snap).2.1.log ∧
        ∀ ch ∈ cur.children,
          (⟨ch.nonce, ch.id, TState.skipped, none⟩ : Report) ∈
            (testProgress c rs snap).2.1.log := by
  subst hcur
  rw [testProgress_completed c rs snap ts old hstate hts hold]
  dsimp only
  obtain ⟨hcr, hact, _, hqual⟩ :=
    tpFold_c3 (((updateTests c snap true).items.find?
      (fun x => x.nonce = old.nonce)).getD old) r hr ts ⟨rs, [], false⟩ rfl ha
  rw [if_neg (by rw [hcr]; exact Bool.false_ne_true)]
  constructor
  · by_cases hm : (ts.foldl (tpStep (((updateTests c snap true).items.find?
        (fun x => x.nonce = old.nonce)).getD old)) ⟨rs, [], false⟩).msgs ≠ []
    · rw [if_pos hm]
    · rw [if_neg hm]
  · intro t ht frames hres hstt htr
    have hmem := hqual t ht frames hres hstt htr
    have hne : (ts.foldl (tpStep (((updateTests c snap true).items.find?
        (fun x => x.nonce = old.nonce)).getD old)) ⟨rs, [], false⟩).msgs ≠ [] :=
      List.ne_nil_of_mem hmem
    rw [if_pos hne]
    dsimp only
    refine ⟨_, hmem, ?_, ?_⟩
    · refine (setList_log_mono ..).subset ?_
      rw [set_npd_true _ _ _ _ hact, applyOne_log]
      exact List.mem_append_right _ (List.mem_singleton.2 rfl)
    · intro ch hch
      exact setList_reports _ _ _ _ (by rw [set_active]; exact hact) ch
        ((mem_allItemsList _ ch).2 ⟨ch, hch, self_mem_allItems ch⟩)

/-- Witness for C3: a ranged suite with a single unmatched failed result
carrying a stack trace; the handler does not throw, the message is rolled
up and the suite is reported `errored`. -/
theorem c3_witness :
    (testProgress
      ⟨[.mk 0 "S" "S" (some "file:///S.java") (some ⟨⟨1, 0⟩, ⟨9, 0⟩⟩) []], 1⟩
      ⟨true, [], []⟩
      ⟨"S", some "file:///S.java", none, .completed,
        some [⟨"x", "x", none, none, .failed, some ["boom"]⟩]⟩).2.2 = false ∧
    ∀ t ∈ [(⟨"x", "x", none, none, .failed, some ["boom"]⟩ : TestCase)],
      ∀ frames, resolveTest (.mk 0 "S" "S" (some "file:///S.java")
          (some ⟨⟨1, 0⟩, ⟨9, 0⟩⟩) []) t.id = none →
      t.state ≠ ResState.passed → t.stackTrace = some frames →
      ∃ ms, (⟨String.intercalate "\n" frames,
          some ⟨(TItem.mk 0 "S" "S" (some "file:///S.java")
            (some ⟨⟨1, 0⟩, ⟨9, 0⟩⟩) []).uri,
            (⟨⟨1, 0⟩, ⟨9, 0⟩⟩ : SRange).start⟩⟩ : TMsg) ∈ ms ∧
        (⟨(TItem.mk 0 "S" "S" (some "file:///S.java")
            (some ⟨⟨1, 0⟩, ⟨9, 0⟩⟩) []).nonce,
          (TItem.mk 0 "S" "S" (some "file:///S.java")
            (some ⟨⟨1, 0⟩, ⟨9, 0⟩⟩) []).id, TState.errored, some ms⟩ : Report) ∈
          (testProgress
            ⟨[.mk 0 "S" "S" (some "file:///S.java") (some ⟨⟨1, 0⟩, ⟨9, 0⟩⟩) []], 1⟩
            ⟨true, [], []⟩
            ⟨"S", some "file:///S.java", none, .completed,
              some [⟨"x", "x", none, none, .failed, some ["boom"]⟩]⟩).2.1.log ∧
        ∀ ch ∈ (TItem.mk 0 "S" "S" (some "file:///S.java")
            (some ⟨⟨1, 0⟩, ⟨9, 0⟩⟩) []).children,
          (⟨ch.nonce, ch.id, TState.skipped, none⟩ : Report) ∈
            (testProgress
              ⟨[.mk 0 "S" "S" (some "file:///S.java") (some ⟨⟨1, 0⟩, ⟨9, 0⟩⟩) []], 1⟩
              ⟨true, [], []⟩
              ⟨"S", some "file:///S.java", none, .completed,
                some [⟨"x", "x", none, none, .failed, some ["boom"]⟩]⟩).2.1.log :=
  c3_amended_rollup
    ⟨[.mk 0 "S" "S" (some "file:///S.java") (some ⟨⟨1, 0⟩, ⟨9, 0⟩⟩) []], 1⟩
    ⟨true, [], []⟩
    ⟨"S", some "file:///S.java", none, .completed,
      some [⟨"x", "x", none, none, .failed, some ["boom"]⟩]⟩
    [⟨"x", "x", none, none, .failed, some ["boom"]⟩]
    (.mk 0 "S" "S" (some "file:///S.java") (some ⟨⟨1, 0⟩, ⟨9, 0⟩⟩) [])
    (.mk 0 "S" "S" (some "file:///S.java") (some ⟨⟨1, 0⟩, ⟨9, 0⟩⟩) [])
    ⟨⟨1, 0⟩, ⟨9, 0⟩⟩ rfl rfl rfl rfl rfl rfl

/-! ## Claim C7: failure-message locations -/

/-- One result-loop iteration only ever appends to the run log. -/
theorem tpStep_log_mono (cur : TItem) (acc : TPAcc) (t : TestCase) :
    acc.rs.log <+: (tpStep cur acc t).rs.log := by
  unfold tpStep
  by_cases h1 : acc.crashed = true
  · rw [if_pos h1]
  · rw [if_neg h1]
    by_cases h2 : acc.rs.active = true
    · rw [if_pos h2]
      cases hst : t.stackTrace with
      | none =>
          dsimp only
          rw [if_neg (by simp)]
          cases hres : resolveTest cur t.id with
          | some pr =>
              obtain ⟨ct, pu⟩ := pr
              cases hts2 : t.state.toTState with
              | some st => exact set_log_mono ..
              | none => exact List.prefix_refl _
          | none => exact List.prefix_refl _
      | some frames0 =>
          dsimp only
          cases hres : resolveTest cur t.id with
          | some pr =>
              obtain ⟨ct, pu⟩ := pr
              dsimp only
              cases hu : ct.uri <|> pu with
              | some u =>
                  dsimp only
                  rw [if_neg (by simp)]
                  cases hts2 : t.state.toTState with
                  | some st => exact set_log_mono ..
                  | none =>
                      dsimp only
                      by_cases hp : t.state ≠ ResState.passed
                      · rw [if_pos hp]
                      · rw [if_neg hp]
              | none =>
                  rw [if_neg (by simp)]
                  cases hts2 : t.state.toTState with
                  | some st => exact set_log_mono ..
                  | none =>
                      dsimp only
                      by_cases hp : t.state ≠ ResState.passed
                      · rw [if_pos hp]
                      · rw [if_neg hp]
          | none =>
              dsimp only
              cases hcr2 : cur.range with
              | some rr =>
                  dsimp only
                  rw [if_neg (by simp)]
                  by_cases hp : t.state ≠ ResState.passed
                  · rw [if_pos hp]
                  · rw [if_neg hp]
              | none =>
                  dsimp only
                  rw [if_pos rfl]
    · rw [if_neg h2]

theorem tpFold_log_mono (cur : TItem) : ∀ (ts : List TestCase) (acc : TPAcc),
    acc.rs.log <+: (ts.foldl (tpStep cur) acc).rs.log := by
  intro ts
  induction ts with
  | nil => intro acc; exact List.prefix_refl _
  | cons t ts2 ih =>
      intro acc
      rw [List.foldl_cons]
      exact (tpStep_log_mono cur acc t).trans (ih (tpStep cur acc t))

/-- One result-loop iteration on a matched failed test with a stack trace
and a resolvable uri reports the failure with the location computed from
the stack scan, falling back to the matched item's own declared-range
start (never the suite's). -/
theorem tpStep_c7 (cur : TItem) (acc : TPAcc) (t : TestCase) (ct : TItem)
    (puri : Option String) (frames : List String) (u : String)
    (hc : acc.crashed = false) (ha : acc.rs.active = true)
    (hres : resolveTest cur t.id = some (ct, puri))
    (hstf : t.state = ResState.failed)
    (htr : t.stackTrace = some frames)
    (hu : (ct.uri <|> puri) = some u) :
    (⟨ct.nonce, ct.id, TState.failed,
      some [⟨String.intercalate "\n" frames,
        Option.map (fun p => (⟨some u, p⟩ : Loc))
          (match stackLine frames (basename u) with
           | some l => some ⟨l - 1, 0⟩
           | none => ct.range.map (fun rg => rg.start))⟩]⟩ : Report) ∈
      (tpStep cur acc t).rs.log := by
  unfold tpStep
  rw [if_neg (by rw [hc]; exact Bool.false_ne_true), if_pos ha, htr, hres]
  dsimp only
  rw [hu]
  dsimp only
  rw [if_neg (by simp)]
  have hts2 : t.state.toTState = some TState.failed := by rw [hstf]; rfl
  rw [hts2]
  dsimp only
  rw [set_npd_true _ _ _ _ ha, applyOne_log]
  exact List.mem_append_right _ (List.mem_singleton.2 rfl)

/-- Counterexample to claim C7: the result `t` is matched to the known
rangeless child item, its single stack line matches nothing, and the parent
suite has a declared range starting at line 1 — yet the reported failure
message carries no location at all: the code never falls back to the parent
suite's declared-range start for a matched item. -/
theorem c7_counterexample :
    (testProgress
      ⟨[.mk 0 "S" "S" (some "file:///S.java") (some ⟨⟨1, 0⟩, ⟨9, 0⟩⟩)
          [.mk 1 "t" "t" none none []]], 2⟩
      ⟨true, [], []⟩
      ⟨"S", some "file:///S.java", none, .completed,
        some [⟨"t", "t", none, none, .failed, some ["nomatch"]⟩]⟩).2.1.log =
    [⟨1, "t", TState.failed, some [⟨"nomatch", none⟩]⟩] := rfl

/-- Claim C7, amended: during a running `completed` suite event over a
ranged suite item, a failed result matched to a known item, carrying a
stack trace and a resolvable uri, is reported with the message location
computed as: the first stack line matching `at <anything>(<file>:<line>)`
whose file equals the base name of the resolved uri yields position
`(line-1, 0)`; if no line matches, the location falls back to the matched
item's own declared-range start, and when the matched item has no declared
range the message carries no location.  The parent suite's range start is
used only for results matched to no item. -/
theorem c7_amended_location (c : Ctrl) (rs : RunState) (snap : TestSuiteSnap)
    (ts : List TestCase) (old cur : TItem) (r : SRange)
    (ha : rs.active = true)
    (hstate : snap.state = SuiteState.completed)
    (hts : snap.tests = some ts)
    (hold : childGet c.items snap.name = some old)
    (hcur : ((updateTests c snap true).items.find?
      (fun x => x.nonce = old.nonce)).getD old = cur)
    (hr : cur.range = some r) :
    ∀ t ∈ ts, ∀ ct puri frames u,
      resolveTest cur t.id = some (ct, puri) →
      t.state = ResState.failed →
      t.stackTrace = some frames →
      (ct.uri <|> puri) = some u →
      (⟨ct.nonce, ct.id, TState.failed,
        some [⟨String.intercalate "\n" frames,
          Option.map (fun p => (⟨some u, p⟩ : Loc))
            (match stackLine frames (basename u) with
             | some l => some ⟨l - 1, 0⟩
             | none => ct.range.map (fun rg => rg.start))⟩]⟩ : Report) ∈
        (testProgress c rs snap).2.1.log := by
  rw [testProgress_completed c rs snap ts old hstate hts hold]
  dsimp only
  rw [hcur]
  intro t ht ct puri frames u hres hstf htr hu
  obtain ⟨l1, l2, rfl⟩ := List.append_of_mem ht
  obtain ⟨hc1, ha1, _, _⟩ := tpFold_c3 cur r hr l1 ⟨rs, [], false⟩ rfl ha
  have hrep := tpStep_c7 cur (l1.foldl (tpStep cur) ⟨rs, [], false⟩) t ct puri
    frames u hc1 ha1 hres hstf htr hu
  have hrep2 : (⟨ct.nonce, ct.id, TState.failed,
      some [⟨String.intercalate "\n" frames,
        Option.map (fun p => (⟨some u, p⟩ : Loc))
          (match stackLine frames (basename u) with
           | some l => some ⟨l - 1, 0⟩
           | none => ct.range.map (fun rg => rg.start))⟩]⟩ : Report) ∈
      ((l1 ++ t :: l2).foldl (tpStep cur) ⟨rs, [], false⟩).rs.log := by
    rw [List.foldl_append, List.foldl_cons]
    exact (tpFold_log_mono cur l2 _).subset hrep
  obtain ⟨hcrAll, hactAll, _, _⟩ :=
    tpFold_c3 cur r hr (l1 ++ t :: l2) ⟨rs, [], false⟩ rfl ha
  rw [if_neg (by rw [hcrAll]; exact Bool.false_ne_true)]
  by_cases hm : ((l1 ++ t :: l2).foldl (tpStep cur) ⟨rs, [], false⟩).msgs ≠ []
  · rw [if_pos hm]
    dsimp only
    exact (setList_log_mono ..).subset ((set_log_mono ..).subset hrep2)
  · rw [if_neg hm]
    exact hrep2

/-- Witness for C7: a matched failed result whose stack line
`at foo.bar(S.java:42)` matches the resolved uri's base name is reported
with location `(41, 0)`. -/
theorem c7_witness :
    (⟨(TItem.mk 1 "t" "t" none none []).nonce,
      (TItem.mk 1 "t" "t" none none []).id, TState.failed,
      some [⟨String.intercalate "\n" ["  at foo.bar(S.java:42)"],
        Option.map (fun p => (⟨some "file:///S.java", p⟩ : Loc))
          (match stackLine ["  at foo.bar(S.java:42)"] (basename "file:///S.java") with
           | some l => some ⟨l - 1, 0⟩
           | none => (TItem.mk 1 "t" "t" none none []).range.map
               (fun rg => rg.start))⟩]⟩ : Report) ∈
      (testProgress
        ⟨[.mk 0 "S" "S" (some "file:///S.java") (some ⟨⟨1, 0⟩, ⟨9, 0⟩⟩)
            [.mk 1 "t" "t" none none []]], 2⟩
        ⟨true, [], []⟩
        ⟨"S", some "file:///S.java", none, .completed,
          some [⟨"t", "t", none, none, .failed,
            some ["  at foo.bar(S.java:42)"]⟩]⟩).2.1.log :=
  c7_amended_location
    ⟨[.mk 0 "S" "S" (some "file:///S.java") (some ⟨⟨1, 0⟩, ⟨9, 0⟩⟩)
        [.mk 1 "t" "t" none none []]], 2⟩
    ⟨true, [], []⟩
    ⟨"S", some "file:///S.java", none, .completed,
      some [⟨"t", "t", none, none, .failed, some ["  at foo.bar(S.java:42)"]⟩]⟩
    [⟨"t", "t", none, none, .failed, some ["  at foo.bar(S.java:42)"]⟩]
    (.mk 0 "S" "S" (some "file:///S.java") (some ⟨⟨1, 0⟩, ⟨9, 0⟩⟩)
      [.mk 1 "t" "t" none none []])
    (.mk 0 "S" "S" (some "file:///S.java") (some ⟨⟨1, 0⟩, ⟨9, 0⟩⟩)
      [.mk 1 "t" "t" none none []])
    ⟨⟨1, 0⟩, ⟨9, 0⟩⟩ rfl rfl rfl rfl rfl rfl
    ⟨"t", "t", none, none, .failed, some ["  at foo.bar(S.java:42)"]⟩
    (List.mem_singleton_self _)
    (.mk 1 "t" "t" none none []) (some "file:///S.java")
    ["  at foo.bar(S.java:42)"] "file:///S.java"
    rfl rfl rfl rfl

end NbTestAdapter
